import Mathlib

set_option linter.unusedSectionVars false

/-!
Shallow embedding of the double-precision GEMM core of the `goblas` level-2
source file: the `general` matrix view, the four serial kernels, the block
partition planner `computeNumBlocks`, the tiled parallel path and the `Dgemm`
entry point.

Scalars are kept polymorphic in a type `R`.  Numeric claims are read at `ℚ`
(exact arithmetic, which models float64 exactly on the inputs where float64
arithmetic is exact) and claims about IEEE special values are read at `FP`,
a float model with NaN and ±Inf over exact integer finite values.

Buffers are `List R`; Go's in-place slice mutation becomes explicit state
passing of the `c` buffer, with sub-slice aliasing modelled by a
drop/take-append round trip.  The concurrent worker pool of `dgemmParallel`
writes pairwise disjoint tiles of `c` (proved below), so it is modelled by
processing the tile tasks sequentially in the order the source enqueues them.
-/

namespace Blas

/-- Transpose flags of the `blas` package (`NoTrans`, `Trans`, `ConjTrans`). -/
inductive Transpose where
  | NoTrans
  | Trans
  | ConjTrans
deriving DecidableEq

/-- The comparison `t == blas.Trans` used when building the operand views. -/
def Transpose.isTrans : Transpose → Bool
  | .Trans => true
  | _ => false

/-- Errors corresponding to the `panic` calls of the entry point. -/
inductive BlasError where
  | shapeErr
  | badTranspose
deriving DecidableEq

/-- The `general` matrix view of the source: a flat row-major buffer together
with a row count, a column count and a stride (elements per physical row). -/
structure general (R : Type) where
  data : List R
  rows : Nat
  cols : Nat
  stride : Nat
deriving DecidableEq

/-- `b x b` submatrix edge, the `blockSize` constant of the source. -/
def blockSize : Nat := 64

/-- Minimum number of blocks needed to go parallel (`minParBlock`). -/
def minParBlock : Nat := 4

/-- Buffer size relative to the worker count (`buffMul`).  It only sizes the
task channel, so it has no observable effect on the computed values. -/
def buffMul : Nat := 4

variable {R : Type} [Zero R] [One R] [Add R] [Mul R] [DecidableEq R]

/-- Read the logical element `(i, j)` of a view: the buffer element at
physical offset `i * stride + j` (default `0` when out of range; all reads
below claims are made about happen in range). -/
def general.get (g : general R) (i j : Nat) : R :=
  g.data.getD (i * g.stride + j) 0

/-- Write the logical element `(i, j)` of a view (a no-op when out of range,
matching the fact that validated calls never write out of range). -/
def general.set (g : general R) (i j : Nat) (x : R) : general R :=
  { g with data := g.data.set (i * g.stride + j) x }

/-- Modelled from the spec: the sub-view operation of the Matrix View
component, whose Go source (`general.view`) is not under `src/`.  Per the
spec it returns a view into the same buffer offset by `(i, j)`, with the
given row/column counts and the parent's stride, copying nothing.  Sharing
of the parent buffer's tail is modelled by dropping the offset prefix. -/
def general.view (g : general R) (i j r s : Nat) : general R :=
  { data := g.data.drop (i * g.stride + j), rows := r, cols := s, stride := g.stride }

/-- Modelled from the spec: the construction-time validity check of the
Matrix View component (`general.check`), whose Go source is not under
`src/`.  Per the spec it fails when the stride is smaller than the column
count, or when some accessed element `(r, c)` (with `r < rows`, `c < cols`)
would have its physical offset `r * stride + c` outside the buffer; the
largest such offset is `(rows - 1) * stride + (cols - 1)`. -/
def general.check (g : general R) : Option BlasError :=
  if g.stride < g.cols then some .shapeErr
  else if 0 < g.rows ∧ 0 < g.cols ∧ g.data.length < (g.rows - 1) * g.stride + g.cols then
    some .shapeErr
  else none

/-- The innermost write loop shared by the kernels: for `j` running over
`0, ..., w-1` in order, perform `ctmp[j] += f j` on row `i` of `c`
(`ctmp` is the row-`i` slice of `c`, so `ctmp[j]` is physical offset
`i * stride + j`). -/
def addRow (c : general R) (i w : Nat) (f : Nat → R) : general R :=
  (List.range w).foldl (fun acc j => acc.set i j (acc.get i j + f j)) c

/-- `dgemmSerialNotNot`: serial kernel, neither operand transposed.
Outer loop over the rows of `a`; middle loop `for l, v := range` the row-`i`
slice of `a` (length `a.cols`); `tmp := alpha * v`; if `tmp != 0`, inner loop
`for j, w := range` the row-`l` slice of `b` (length `b.cols`) doing
`ctmp[j] += tmp * w`. -/
def dgemmSerialNotNot (a b c : general R) (alpha : R) : general R :=
  (List.range a.rows).foldl (fun c1 i =>
    (List.range a.cols).foldl (fun c2 l =>
      let tmp := alpha * a.get i l
      if tmp ≠ 0 then addRow c2 i b.cols (fun j => tmp * b.get l j) else c2) c1) c

/-- `dgemmSerialTransNot`: serial kernel, `a` transposed, `b` not.  Outer
loop over the rows of `a` (the contraction dimension); middle loop
`for i, v := range` the row-`l` slice of `a`; `tmp := alpha * v`; if
`tmp != 0`, inner loop over `btmp` (the row-`l` slice of `b`) doing
`ctmp[j] += tmp * w` into row `i` of `c`. -/
def dgemmSerialTransNot (a b c : general R) (alpha : R) : general R :=
  (List.range a.rows).foldl (fun c1 l =>
    (List.range a.cols).foldl (fun c2 i =>
      let tmp := alpha * a.get l i
      if tmp ≠ 0 then addRow c2 i b.cols (fun j => tmp * b.get l j) else c2) c1) c

/-- `dgemmSerialNotTrans`: serial kernel, `b` transposed, `a` not.  Outer
loop over the rows of `a`; for each `j < b.rows`, a dot product
`tmp += atmp[l] * v` over the row-`j` slice of `b` (length `b.cols`),
then `ctmp[j] += alpha * tmp`. -/
def dgemmSerialNotTrans (a b c : general R) (alpha : R) : general R :=
  (List.range a.rows).foldl (fun c1 i =>
    addRow c1 i b.rows (fun j =>
      alpha * (List.range b.cols).foldl (fun t l => t + a.get i l * b.get j l) 0)) c

/-- `dgemmSerialTransTrans`: serial kernel, both operands transposed.  Outer
loop over the rows of `a`; middle loop `for i, v := range` the row-`l` slice
of `a`; if `v != 0`, `tmp := alpha * v` and inner loop
`for j := 0; j < b.rows; j++` doing `ctmp[j] += tmp * b.data[j*b.stride+l]`. -/
def dgemmSerialTransTrans (a b c : general R) (alpha : R) : general R :=
  (List.range a.rows).foldl (fun c1 l =>
    (List.range a.cols).foldl (fun c2 i =>
      let v := a.get l i
      if v ≠ 0 then addRow c2 i b.rows (fun j => (alpha * v) * b.get j l) else c2) c1) c

/-- Reference variant of `dgemmSerialNotNot` with the `tmp != 0`
short-circuit removed: the inner accumulation pass always runs.  Used to
state the claim that skipping a zero-multiplier pass is observationally
identical to running it. -/
def dgemmSerialNotNotNoSkip (a b c : general R) (alpha : R) : general R :=
  (List.range a.rows).foldl (fun c1 i =>
    (List.range a.cols).foldl (fun c2 l =>
      let tmp := alpha * a.get i l
      addRow c2 i b.cols (fun j => tmp * b.get l j)) c1) c

/-- Reference variant of `dgemmSerialTransNot` with the `tmp != 0`
short-circuit removed. -/
def dgemmSerialTransNotNoSkip (a b c : general R) (alpha : R) : general R :=
  (List.range a.rows).foldl (fun c1 l =>
    (List.range a.cols).foldl (fun c2 i =>
      let tmp := alpha * a.get l i
      addRow c2 i b.cols (fun j => tmp * b.get l j)) c1) c

/-- Reference variant of `dgemmSerialTransTrans` with the `v != 0`
short-circuit removed. -/
def dgemmSerialTransTransNoSkip (a b c : general R) (alpha : R) : general R :=
  (List.range a.rows).foldl (fun c1 l =>
    (List.range a.cols).foldl (fun c2 i =>
      let v := a.get l i
      addRow c2 i b.rows (fun j => (alpha * v) * b.get j l)) c1) c

/-- `dgemmSerial`: dispatch to the four kernels by transpose-flag pair.  The
`default` branch of the source's switch is `panic("unreachable")`: the entry
point validates both flags before dispatch, so the branch is modelled as the
identity on `c`. -/
def dgemmSerial (tA tB : Transpose) (a b c : general R) (alpha : R) : general R :=
  match tA, tB with
  | .NoTrans, .NoTrans => dgemmSerialNotNot a b c alpha
  | .Trans, .NoTrans => dgemmSerialTransNot a b c alpha
  | .NoTrans, .Trans => dgemmSerialNotTrans a b c alpha
  | .Trans, .Trans => dgemmSerialTransTrans a b c alpha
  | _, _ => c

/-- `computeNumBlocks`: the block partition planner.  Returns `maxKLen`, the
length of the contraction dimension, and `parBlocks`, the number of output
blocks available for parallel dispatch. -/
def computeNumBlocks (a b : general R) (aTrans bTrans : Bool) : Nat × Nat :=
  let aRowBlocks := a.rows / blockSize + (if a.rows % blockSize ≠ 0 then 1 else 0)
  let aColBlocks := a.cols / blockSize + (if a.cols % blockSize ≠ 0 then 1 else 0)
  let bRowBlocks := b.rows / blockSize + (if b.rows % blockSize ≠ 0 then 1 else 0)
  let bColBlocks := b.cols / blockSize + (if b.cols % blockSize ≠ 0 then 1 else 0)
  match aTrans, bTrans with
  | false, false => (a.cols, aRowBlocks * bColBlocks)
  | true, false => (a.rows, aColBlocks * bColBlocks)
  | false, true => (a.cols, aRowBlocks * bRowBlocks)
  | true, true => (a.rows, aColBlocks * bRowBlocks)

/-- The index sequence of the Go loop `for i := 0; i < n; i += blockSize`:
the multiples of `blockSize` below `n`, in increasing order. -/
def blockStarts (n : Nat) : List Nat :=
  (List.range ((n + blockSize - 1) / blockSize)).map (fun q => q * blockSize)

/-- The `subMul` tile tasks sent on the channel, in the order the source
enqueues them: row-major over the block starts of the output matrix. -/
def tileTasks (rows cols : Nat) : List (Nat × Nat) :=
  (blockStarts rows).flatMap (fun i => (blockStarts cols).map (fun j => (i, j)))

/-- The body a worker runs for one received `subMul` task `(i, j)`: clip the
tile at the matrix edge, take the `c` sub-view, then walk the contraction
dimension in `blockSize` chunks, taking matching sub-views of `a` and `b`
(selected by the transpose flags) and invoking the serial kernel set.
Writing through the aliased sub-view is modelled by re-attaching the dropped
prefix of the parent buffer. -/
def processTile (tA tB : Transpose) (a b : general R) (alpha : R) (maxKLen : Nat)
    (c : general R) (t : Nat × Nat) : general R :=
  let i := t.1
  let j := t.2
  let leni := min blockSize (c.rows - i)
  let lenj := min blockSize (c.cols - j)
  let cSub := c.view i j leni lenj
  let cSub2 := (blockStarts maxKLen).foldl (fun cs k =>
    let lenk := min blockSize (maxKLen - k)
    let aSub := if tA.isTrans then a.view k i lenk leni else a.view i k leni lenk
    let bSub := if tB.isTrans then b.view j k lenj lenk else b.view k j lenk lenj
    dgemmSerial tA tB aSub bSub cs alpha) cSub
  { c with data := c.data.take (i * c.stride + j) ++ cSub2.data }

/-- The tiled path of `dgemmParallel`: every output tile is enqueued exactly
once in row-major tile order and processed by the worker pool.  Distinct
tasks write pairwise disjoint regions of `c` (proved below), so the pool is
modelled by folding the tasks in enqueue order. -/
def dgemmTiled (tA tB : Transpose) (a b c : general R) (alpha : R) (maxKLen : Nat) :
    general R :=
  (tileTasks c.rows c.cols).foldl (processTile tA tB a b alpha maxKLen) c

/-- `dgemmParallel`: compute the partition via the planner; below the
`minParBlock` threshold run the whole multiplication serially, otherwise run
the tiled worker-pool path. -/
def dgemmParallel (tA tB : Transpose) (a b c : general R) (alpha : R) : general R :=
  let nb := computeNumBlocks a b tA.isTrans tB.isTrans
  if nb.2 < minParBlock then dgemmSerial tA tB a b c alpha
  else dgemmTiled tA tB a b c alpha nb.1

/-- The `beta`-scaling pass of the entry point: for each of the first `m`
rows, `ctmp[j] *= beta` over the row slice of length `cmat.cols`. -/
def scaleRows (m : Nat) (beta : R) (cm : general R) : general R :=
  (List.range m).foldl (fun cm1 i =>
    (List.range cm.cols).foldl (fun cm2 j => cm2.set i j (cm2.get i j * beta)) cm1) cm

/-- `Dgemm`, the entry point: build the operand views (interpreting the
transpose flags), run the three shape checks and the two flag checks (each
`panic` is modelled by returning the untouched `c` buffer together with the
error), then scale `c` by `beta` unless `beta == 1`, and dispatch to
`dgemmParallel`.  The returned pair is the observable `c` buffer after the
call and the panic value, if any. -/
def Dgemm (tA tB : Transpose) (m n k : Nat) (alpha : R) (a : List R) (lda : Nat)
    (b : List R) (ldb : Nat) (beta : R) (c : List R) (ldc : Nat) :
    List R × Option BlasError :=
  let amat : general R := if tA.isTrans then ⟨a, k, m, lda⟩ else ⟨a, m, k, lda⟩
  match amat.check with
  | some e => (c, some e)
  | none =>
    let bmat : general R := if tB.isTrans then ⟨b, n, k, ldb⟩ else ⟨b, k, n, ldb⟩
    match bmat.check with
    | some e => (c, some e)
    | none =>
      let cmat : general R := ⟨c, m, n, ldc⟩
      match cmat.check with
      | some e => (c, some e)
      | none =>
        if tA ≠ Transpose.Trans ∧ tA ≠ Transpose.NoTrans then (c, some .badTranspose)
        else if tB ≠ Transpose.Trans ∧ tB ≠ Transpose.NoTrans then (c, some .badTranspose)
        else
          let cmat2 := if beta ≠ 1 then scaleRows m beta cmat else cmat
          ((dgemmParallel tA tB amat bmat cmat2 alpha).data, none)

/-- The logical element `(i, j)` of `op(X)`: `X[j][i]` under `Trans`, else
`X[i][j]`.  Used to state what the kernels compute. -/
def opGet : Transpose → general R → Nat → Nat → R
  | Transpose.Trans, g, i, j => g.get j i
  | _, g, i, j => g.get i j

/-- Row count of `op(X)`. -/
def opRows : Transpose → general R → Nat
  | Transpose.Trans, g => g.cols
  | _, g => g.rows

/-- Column count of `op(X)`. -/
def opCols : Transpose → general R → Nat
  | Transpose.Trans, g => g.rows
  | _, g => g.cols

/-- The naive triple-loop reference of the spec's tiling-correctness test:
for every output element `(i, j)` of `c`, add
`alpha * (sum over l < K of op(a)[i][l] * op(b)[l][j])` directly. -/
def naiveDgemm (tA tB : Transpose) (a b c : general R) (alpha : R) (K : Nat) :
    general R :=
  (List.range c.rows).foldl (fun c1 i =>
    (List.range c.cols).foldl (fun c2 j =>
      c2.set i j (c2.get i j +
        alpha * ((List.range K).map (fun l => opGet tA a i l * opGet tB b l j)).sum)) c1) c

/-- Tile `(i0, j0)` covers output element `(i, j)`: the element lies inside
the clipped `blockSize × blockSize` region at `(i0, j0)`. -/
def tileCovers (rows cols : Nat) (t : Nat × Nat) (i j : Nat) : Prop :=
  t.1 ≤ i ∧ i < t.1 + min blockSize (rows - t.1) ∧
  t.2 ≤ j ∧ j < t.2 + min blockSize (cols - t.2)

instance (rows cols : Nat) (t : Nat × Nat) (i j : Nat) :
    Decidable (tileCovers rows cols t i j) :=
  inferInstanceAs (Decidable (t.1 ≤ i ∧ i < t.1 + min blockSize (rows - t.1) ∧
    t.2 ≤ j ∧ j < t.2 + min blockSize (cols - t.2)))

/-- Validity of a `Dgemm` call: the three view checks pass and both
transpose flags are in the accepted domain.  This is exactly the set of
calls on which the entry point does not panic (proved below). -/
def dgemmValid (tA tB : Transpose) (m n k : Nat) (a : List R) (lda : Nat)
    (b : List R) (ldb : Nat) (c : List R) (ldc : Nat) : Prop :=
  (general.check (if tA.isTrans then ⟨a, k, m, lda⟩ else ⟨a, m, k, lda⟩) = none) ∧
  (general.check (if tB.isTrans then ⟨b, n, k, ldb⟩ else ⟨b, k, n, ldb⟩) = none) ∧
  (general.check (⟨c, m, n, ldc⟩ : general R) = none) ∧
  (tA = Transpose.Trans ∨ tA = Transpose.NoTrans) ∧
  (tB = Transpose.Trans ∨ tB = Transpose.NoTrans)

/-!
A float model with IEEE special values: `FP` is NaN, `±Inf`, or a finite
value carried exactly.  Multiplication and addition follow the IEEE-754
rules for special operands (`0 * ±Inf = NaN`, `Inf + -Inf = NaN`, NaN
propagates); finite arithmetic is exact (no rounding, overflow or signed
zero, which none of the claims below depend on; the finite payload is an
integer, which is enough for every special-value claim and keeps the model
computable by the kernel).  Go's `!=` on float64 is IEEE inequality; on
`FP` values it coincides with structural inequality (there is no `-0`,
and `NaN != x` is true just as `FP.nan ≠ x` holds). -/
inductive FP where
  | nan
  | inf
  | ninf
  | fin (q : ℤ)
deriving DecidableEq

namespace FP

/-- IEEE multiplication on the float model. -/
def mul : FP → FP → FP
  | nan, _ => nan
  | _, nan => nan
  | inf, inf => inf
  | inf, ninf => ninf
  | ninf, inf => ninf
  | ninf, ninf => inf
  | inf, fin q => if q = 0 then nan else if 0 < q then inf else ninf
  | fin q, inf => if q = 0 then nan else if 0 < q then inf else ninf
  | ninf, fin q => if q = 0 then nan else if 0 < q then ninf else inf
  | fin q, ninf => if q = 0 then nan else if 0 < q then ninf else inf
  | fin q, fin r => fin (q * r)

/-- IEEE addition on the float model. -/
def add : FP → FP → FP
  | nan, _ => nan
  | _, nan => nan
  | inf, ninf => nan
  | ninf, inf => nan
  | inf, _ => inf
  | _, inf => inf
  | ninf, _ => ninf
  | _, ninf => ninf
  | fin q, fin r => fin (q + r)

instance : Mul FP := ⟨mul⟩

instance : Add FP := ⟨add⟩

instance : Zero FP := ⟨fin 0⟩

instance : One FP := ⟨fin 1⟩

/-- A float-model value is finite when it is neither NaN nor `±Inf`. -/
def finite : FP → Bool
  | fin _ => true
  | _ => false

end FP

/-!  Basic facts about views, `set`/`get` and the shared inner write loop. -/

theorem general.set_data (g : general R) (i j : Nat) (x : R) :
    (g.set i j x).data = g.data.set (i * g.stride + j) x := rfl

theorem general.set_stride (g : general R) (i j : Nat) (x : R) :
    (g.set i j x).stride = g.stride := rfl

theorem general.set_rows (g : general R) (i j : Nat) (x : R) :
    (g.set i j x).rows = g.rows := rfl

theorem general.set_cols (g : general R) (i j : Nat) (x : R) :
    (g.set i j x).cols = g.cols := rfl

theorem general.get_eq (g : general R) (i j : Nat) :
    g.get i j = (g.data[i * g.stride + j]?).getD 0 := by
  simp [general.get, List.getD_eq_getElem?_getD]

/-- A fold whose step preserves a predicate preserves it over the whole list. -/
theorem foldl_preserve {α β : Type} (f : β → α → β) (P : β → Prop)
    (h : ∀ b a, P b → P (f b a)) : ∀ (l : List α) (b : β), P b → P (l.foldl f b) := by
  intro l
  induction l with
  | nil => intro b hb; exact hb
  | cons a l ih => intro b hb; exact ih (f b a) (h b a hb)

/-- A fold whose step fixes the accumulator is the identity. -/
theorem foldl_id {α β : Type} (f : β → α → β) (l : List α) (b : β)
    (h : ∀ x, x ∈ l → f b x = b) : l.foldl f b = b := by
  induction l with
  | nil => rfl
  | cons a l ih =>
      rw [List.foldl_cons, h a (by simp)]
      exact ih (fun x hx => h x (by simp [hx]))

/-- Two folds with pointwise equal steps agree. -/
theorem foldl_congr_fun {α β : Type} (f g : β → α → β) (l : List α) (b : β)
    (h : ∀ y x, f y x = g y x) : l.foldl f b = l.foldl g b := by
  induction l generalizing b with
  | nil => rfl
  | cons a l ih => rw [List.foldl_cons, List.foldl_cons, h]; exact ih _

theorem addRow_stride (c : general R) (i w : Nat) (f : Nat → R) :
    (addRow c i w f).stride = c.stride := by
  unfold addRow
  exact foldl_preserve (fun acc j => acc.set i j (acc.get i j + f j))
    (fun g => g.stride = c.stride) (fun g a h => h) (List.range w) c rfl

theorem addRow_rows (c : general R) (i w : Nat) (f : Nat → R) :
    (addRow c i w f).rows = c.rows := by
  unfold addRow
  exact foldl_preserve (fun acc j => acc.set i j (acc.get i j + f j))
    (fun g => g.rows = c.rows) (fun g a h => h) (List.range w) c rfl

theorem addRow_cols (c : general R) (i w : Nat) (f : Nat → R) :
    (addRow c i w f).cols = c.cols := by
  unfold addRow
  exact foldl_preserve (fun acc j => acc.set i j (acc.get i j + f j))
    (fun g => g.cols = c.cols) (fun g a h => h) (List.range w) c rfl

theorem addRow_length (c : general R) (i w : Nat) (f : Nat → R) :
    (addRow c i w f).data.length = c.data.length := by
  unfold addRow
  exact foldl_preserve (fun acc j => acc.set i j (acc.get i j + f j))
    (fun g => g.data.length = c.data.length)
    (fun g a h => by simpa [general.set_data] using h) (List.range w) c rfl

/-- Physical characterization of the inner write loop: positions inside
`[i * stride, i * stride + w)` gain `f` at their column offset, all other
positions are untouched. -/
theorem addRow_getElem? (c : general R) (i w : Nat) (f : Nat → R) (p : Nat) :
    (addRow c i w f).data[p]? =
      if i * c.stride ≤ p ∧ p < i * c.stride + w then
        (c.data[p]?).map (fun x => x + f (p - i * c.stride))
      else c.data[p]? := by
  induction w with
  | zero =>
      simp only [addRow, List.range_zero, List.foldl_nil]
      rw [if_neg (by omega)]
  | succ w ih =>
      have hstep : addRow c i (w + 1) f =
          (addRow c i w f).set i w ((addRow c i w f).get i w + f w) := by
        unfold addRow
        rw [List.range_succ, List.foldl_append]
        rfl
      have hs : (addRow c i w f).stride = c.stride := addRow_stride c i w f
      have hl : (addRow c i w f).data.length = c.data.length := addRow_length c i w f
      rw [hstep, general.set_data, hs, List.getElem?_set]
      by_cases hp : i * c.stride + w = p
      · subst hp
        have hcond : i * c.stride ≤ i * c.stride + w ∧
            i * c.stride + w < i * c.stride + (w + 1) := by omega
        rw [if_pos rfl, if_pos hcond, hl]
        have hnotw : ¬ (i * c.stride ≤ i * c.stride + w ∧
            i * c.stride + w < i * c.stride + w) := by omega
        have hold : (addRow c i w f).data[i * c.stride + w]? =
            c.data[i * c.stride + w]? := by rw [ih, if_neg hnotw]
        by_cases hlen : i * c.stride + w < c.data.length
        · rw [if_pos hlen]
          rw [general.get_eq, hs, hold, List.getElem?_eq_getElem hlen]
          simp
        · rw [if_neg hlen]
          have : c.data[i * c.stride + w]? = none := List.getElem?_eq_none (by omega)
          rw [this]
          rfl
      · rw [if_neg hp, ih]
        by_cases hc : i * c.stride ≤ p ∧ p < i * c.stride + w
        · rw [if_pos hc, if_pos (by omega)]
        · rw [if_neg hc, if_neg (by omega)]

/-- Skipped-or-not inner pass: when the skip condition fails, the would-be
added values are all zero, so the write loop behaves like an unconditional
one. -/
theorem iteAddRow_getElem? (c2 : general ℚ) (i w : Nat) (cond : Prop) [Decidable cond]
    (f : Nat → ℚ) (hf : ¬ cond → ∀ j, f j = 0) (p : Nat) :
    (if cond then addRow c2 i w f else c2).data[p]? =
      if i * c2.stride ≤ p ∧ p < i * c2.stride + w then
        (c2.data[p]?).map (fun x => x + f (p - i * c2.stride))
      else c2.data[p]? := by
  by_cases hc : cond
  · rw [if_pos hc]
    exact addRow_getElem? c2 i w f p
  · rw [if_neg hc]
    split
    · rw [hf hc]
      cases c2.data[p]? <;> simp
    · rfl

/-- Folding steps that each add to the same region accumulates the sum of
the added values on the region and leaves everything else untouched. -/
theorem foldl_region_getElem? {α : Type} (ts : List α) (T : general ℚ → α → general ℚ)
    (Reg : Nat → Prop) [DecidablePred Reg] (G : α → Nat → ℚ) (c : general ℚ)
    (hpres : ∀ c2 t, (T c2 t).stride = c2.stride)
    (hT : ∀ c2, c2.stride = c.stride → ∀ t p, (T c2 t).data[p]? =
        if Reg p then (c2.data[p]?).map (fun x => x + G t p) else c2.data[p]?)
    (p : Nat) :
    (ts.foldl T c).data[p]? =
      if Reg p then (c.data[p]?).map (fun x => x + (ts.map (fun t => G t p)).sum)
      else c.data[p]? := by
  induction ts generalizing c with
  | nil =>
      simp only [List.foldl_nil, List.map_nil, List.sum_nil]
      split
      · cases c.data[p]? <;> simp
      · rfl
  | cons t ts ih =>
      rw [List.foldl_cons]
      have hstr : (T c t).stride = c.stride := hpres c t
      have hstep := hT c rfl t p
      have hrec := ih (T c t)
        (fun c2 h2 t2 p2 => hT c2 (h2.trans hstr) t2 p2)
      rw [hrec, hstep]
      by_cases hr : Reg p
      · rw [if_pos hr, if_pos hr, if_pos hr]
        cases c.data[p]? <;> simp [add_assoc]
      · rw [if_neg hr, if_neg hr, if_neg hr]

/-- Folding steps whose regions are pairwise disjoint: a position in no
step's region is untouched.  `Inv` is any step-preserved invariant of the
accumulator under which the steps can be characterized. -/
theorem foldl_disjoint_frame {α : Type} (ts : List α) (S : general ℚ → α → general ℚ)
    (Reg : α → Nat → Prop) [∀ t p, Decidable (Reg t p)] (F : α → Nat → ℚ → ℚ)
    (c : general ℚ) (Inv : general ℚ → Prop)
    (hInv : ∀ c2 t, Inv c2 → Inv (S c2 t)) (hbase : Inv c)
    (hS : ∀ c2, Inv c2 → ∀ t, t ∈ ts → ∀ p, (S c2 t).data[p]? =
        if Reg t p then (c2.data[p]?).map (F t p) else c2.data[p]?)
    (p : Nat) (hnone : ∀ t, t ∈ ts → ¬ Reg t p) :
    (ts.foldl S c).data[p]? = c.data[p]? := by
  induction ts generalizing c with
  | nil => rfl
  | cons t ts ih =>
      rw [List.foldl_cons]
      have hstep : (S c t).data[p]? = c.data[p]? := by
        rw [hS c hbase t (by simp) p, if_neg (hnone t (by simp))]
      rw [ih (S c t) (hInv c t hbase)
        (fun c2 h2 t2 ht2 p2 => hS c2 h2 t2 (by simp [ht2]) p2)
        (fun u hu => hnone u (by simp [hu])), hstep]

/-- Folding steps whose regions are pairwise disjoint: a position in the
region of a step `t` of the list receives exactly `t`'s contribution. -/
theorem foldl_disjoint_value {α : Type} (ts : List α) (S : general ℚ → α → general ℚ)
    (Reg : α → Nat → Prop) [∀ t p, Decidable (Reg t p)] (F : α → Nat → ℚ → ℚ)
    (c : general ℚ) (Inv : general ℚ → Prop)
    (hInv : ∀ c2 t, Inv c2 → Inv (S c2 t)) (hbase : Inv c)
    (hS : ∀ c2, Inv c2 → ∀ t, t ∈ ts → ∀ p, (S c2 t).data[p]? =
        if Reg t p then (c2.data[p]?).map (F t p) else c2.data[p]?)
    (hdisj : ts.Pairwise (fun t1 t2 => ∀ q, ¬(Reg t1 q ∧ Reg t2 q)))
    (t : α) (ht : t ∈ ts) (p : Nat) (hreg : Reg t p) :
    (ts.foldl S c).data[p]? = (c.data[p]?).map (F t p) := by
  induction ts generalizing c with
  | nil => cases ht
  | cons u ts ih =>
      rw [List.foldl_cons]
      rcases List.mem_cons.mp ht with hcase | hcase
      · subst hcase
        have hstep : (S c t).data[p]? = (c.data[p]?).map (F t p) := by
          rw [hS c hbase t (by simp) p, if_pos hreg]
        have hnone : ∀ v, v ∈ ts → ¬ Reg v p := by
          intro v hv hvp
          exact (List.pairwise_cons.mp hdisj).1 v hv p ⟨hreg, hvp⟩
        rw [foldl_disjoint_frame ts S Reg F (S c t) Inv hInv (hInv c t hbase)
          (fun c2 h2 t2 ht2 p2 => hS c2 h2 t2 (by simp [ht2]) p2) p hnone, hstep]
      · have hstep : (S c u).data[p]? = c.data[p]? := by
          rw [hS c hbase u (by simp) p]
          have : ¬ Reg u p := by
            intro hup
            exact (List.pairwise_cons.mp hdisj).1 t hcase p ⟨hup, hreg⟩
          rw [if_neg this]
        rw [ih (S c u) (hInv c u hbase)
          (fun c2 h2 t2 ht2 p2 => hS c2 h2 t2 (by simp [ht2]) p2)
          (List.pairwise_cons.mp hdisj).2 hcase, hstep]

/-- A left fold of additions collects the sum (the dot-product accumulator
`tmp` of the not-by-transposed kernel). -/
theorem foldl_add_eq_sum (l : List Nat) (g : Nat → ℚ) (t0 : ℚ) :
    l.foldl (fun t x => t + g x) t0 = t0 + (l.map g).sum := by
  induction l generalizing t0 with
  | nil => simp
  | cons x l ih => simp [ih, add_assoc]

/-- A fold over row indices of steps that each rewrite one row interval
`[i * stride, i * stride + w)` with `w ≤ stride`: positions decompose by
div/mod into the row that touched them. -/
theorem rowsFold_getElem? (I w : Nat) (S : general ℚ → Nat → general ℚ)
    (F : Nat → Nat → ℚ → ℚ) (c : general ℚ) (hw : w ≤ c.stride)
    (hpres : ∀ c2 i, (S c2 i).stride = c2.stride)
    (hS : ∀ c2, c2.stride = c.stride → ∀ i p, (S c2 i).data[p]? =
        if i * c.stride ≤ p ∧ p < i * c.stride + w then
          (c2.data[p]?).map (F i (p - i * c.stride)) else c2.data[p]?)
    (p : Nat) :
    ((List.range I).foldl S c).data[p]? =
      if p / c.stride < I ∧ p % c.stride < w then
        (c.data[p]?).map (F (p / c.stride) (p % c.stride))
      else c.data[p]? := by
  have hdm : p / c.stride * c.stride + p % c.stride = p := Nat.div_add_mod' p c.stride
  have hdisj : (List.range I).Pairwise
      (fun t1 t2 => ∀ q, ¬((t1 * c.stride ≤ q ∧ q < t1 * c.stride + w) ∧
        (t2 * c.stride ≤ q ∧ q < t2 * c.stride + w))) := by
    refine (List.pairwise_lt_range I).imp ?step
    intro t1 t2 hlt q hq
    have h1 : (t1 + 1) * c.stride ≤ t2 * c.stride :=
      Nat.mul_le_mul_right c.stride hlt
    have h2 : (t1 + 1) * c.stride = t1 * c.stride + c.stride := by ring
    omega
  by_cases hcond : p / c.stride < I ∧ p % c.stride < w
  · rw [if_pos hcond]
    have hreg : p / c.stride * c.stride ≤ p ∧ p < p / c.stride * c.stride + w := by
      constructor
      · omega
      · omega
    have hval : ((List.range I).foldl S c).data[p]? =
        (c.data[p]?).map (F (p / c.stride) (p - p / c.stride * c.stride)) :=
      foldl_disjoint_value (List.range I) S
        (fun t q => t * c.stride ≤ q ∧ q < t * c.stride + w)
        (fun t q => F t (q - t * c.stride)) c (fun g => g.stride = c.stride)
        (fun c2 t h2 => (hpres c2 t).trans h2) rfl
        (fun c2 h2 t ht q => hS c2 h2 t q) hdisj (p / c.stride)
        (List.mem_range.mpr hcond.1) p hreg
    rw [hval]
    have hsub : p - p / c.stride * c.stride = p % c.stride := by omega
    rw [hsub]
  · rw [if_neg hcond]
    refine foldl_disjoint_frame (List.range I) S
      (fun t q => t * c.stride ≤ q ∧ q < t * c.stride + w)
      (fun t q => F t (q - t * c.stride)) c (fun g => g.stride = c.stride)
      (fun c2 t h2 => (hpres c2 t).trans h2) rfl ?hS3 p ?hnone
    · intro c2 h2 t ht q
      exact hS c2 h2 t q
    · intro t hti hreg
      have ht2 : t * c.stride ≤ p ∧ p < t * c.stride + w := hreg
      have hwpos : 0 < w := by omega
      have hspos : 0 < c.stride := by omega
      have hdiv : p / c.stride = t := by
        refine Nat.div_eq_of_lt_le ht2.1 ?hi
        have : (t + 1) * c.stride = t * c.stride + c.stride := by ring
        omega
      rw [hdiv] at hdm
      exact hcond ⟨by rw [hdiv]; exact List.mem_range.mp hti, by omega⟩

/-- The multiplicative row pass of the beta-scaling loop: like `addRow` but
with `ctmp[j] *= beta`. -/
theorem scaleRowLoop_getElem? (c : general ℚ) (i w : Nat) (beta : ℚ) (p : Nat) :
    ((List.range w).foldl (fun acc j => acc.set i j (acc.get i j * beta)) c).data[p]? =
      if i * c.stride ≤ p ∧ p < i * c.stride + w then
        (c.data[p]?).map (fun x => x * beta)
      else c.data[p]? := by
  induction w with
  | zero =>
      simp only [List.range_zero, List.foldl_nil]
      rw [if_neg (by omega)]
  | succ w ih =>
      have hstep : (List.range (w + 1)).foldl
          (fun acc j => acc.set i j (acc.get i j * beta)) c =
          ((List.range w).foldl (fun acc j => acc.set i j (acc.get i j * beta)) c).set i w
            (((List.range w).foldl (fun acc j => acc.set i j (acc.get i j * beta)) c).get i w
              * beta) := by
        rw [List.range_succ, List.foldl_append]
        rfl
      have hs : ((List.range w).foldl
          (fun acc j => acc.set i j (acc.get i j * beta)) c).stride = c.stride := by
        exact foldl_preserve (fun acc j => acc.set i j (acc.get i j * beta))
          (fun g => g.stride = c.stride) (fun g a h => h) (List.range w) c rfl
      have hl : ((List.range w).foldl
          (fun acc j => acc.set i j (acc.get i j * beta)) c).data.length = c.data.length := by
        exact foldl_preserve (fun acc j => acc.set i j (acc.get i j * beta))
          (fun g => g.data.length = c.data.length)
          (fun g a h => by simpa [general.set_data] using h) (List.range w) c rfl
      rw [hstep, general.set_data, hs, List.getElem?_set]
      by_cases hp : i * c.stride + w = p
      · subst hp
        have hcond : i * c.stride ≤ i * c.stride + w ∧
            i * c.stride + w < i * c.stride + (w + 1) := by omega
        rw [if_pos rfl, if_pos hcond, hl]
        have hold : ((List.range w).foldl
            (fun acc j => acc.set i j (acc.get i j * beta)) c).data[i * c.stride + w]? =
            c.data[i * c.stride + w]? := by
          rw [ih]
          have hno : ¬ (i * c.stride ≤ i * c.stride + w ∧
              i * c.stride + w < i * c.stride + w) := by omega
          rw [if_neg hno]
        by_cases hlen : i * c.stride + w < c.data.length
        · rw [if_pos hlen, general.get_eq, hs, hold, List.getElem?_eq_getElem hlen]
          simp
        · rw [if_neg hlen]
          have hnone : c.data[i * c.stride + w]? = none :=
            List.getElem?_eq_none (by omega)
          rw [hnone]
          rfl
      · rw [if_neg hp, ih]
        by_cases hc : i * c.stride ≤ p ∧ p < i * c.stride + w
        · rw [if_pos hc, if_pos (by omega)]
        · rw [if_neg hc, if_neg (by omega)]

/-!  Pointwise characterization of the four serial kernels (exact model). -/

theorem dgemmSerialNotNot_getElem? (a b c : general ℚ) (alpha : ℚ)
    (hw : b.cols ≤ c.stride) (p : Nat) :
    (dgemmSerialNotNot a b c alpha).data[p]? =
      if p / c.stride < a.rows ∧ p % c.stride < b.cols then
        (c.data[p]?).map (fun x => x + ((List.range a.cols).map
          (fun l => alpha * a.get (p / c.stride) l * b.get l (p % c.stride))).sum)
      else c.data[p]? := by
  unfold dgemmSerialNotNot
  refine rowsFold_getElem? a.rows b.cols _
    (fun i j x => x + ((List.range a.cols).map
      (fun l => alpha * a.get i l * b.get l j)).sum) c hw ?pres ?hS p
  case pres =>
    intro c2 i
    refine foldl_preserve _ (fun g => g.stride = c2.stride) ?step (List.range a.cols) c2 rfl
    intro g l h
    dsimp only
    split
    · rw [addRow_stride]; exact h
    · exact h
  case hS =>
    intro c2 h2 i q
    have hmid := foldl_region_getElem? (List.range a.cols)
      (fun c3 l =>
        let tmp := alpha * a.get i l
        if tmp ≠ 0 then addRow c3 i b.cols (fun j => tmp * b.get l j) else c3)
      (fun r => i * c2.stride ≤ r ∧ r < i * c2.stride + b.cols)
      (fun l r => alpha * a.get i l * b.get l (r - i * c2.stride)) c2
      ?mpres ?mT q
    case mpres =>
      intro c3 l
      dsimp only
      split
      · rw [addRow_stride]
      · rfl
    case mT =>
      intro c3 h3 l r
      have hstep := iteAddRow_getElem? c3 i b.cols (alpha * a.get i l ≠ 0)
        (fun j => alpha * a.get i l * b.get l j)
        (fun hnc j => by simp [not_not.mp hnc]) r
      rw [h3] at hstep
      exact hstep
    rw [h2] at hmid
    exact hmid

theorem dgemmSerialTransNot_getElem? (a b c : general ℚ) (alpha : ℚ)
    (hw : b.cols ≤ c.stride) (p : Nat) :
    (dgemmSerialTransNot a b c alpha).data[p]? =
      if p / c.stride < a.cols ∧ p % c.stride < b.cols then
        (c.data[p]?).map (fun x => x + ((List.range a.rows).map
          (fun l => alpha * a.get l (p / c.stride) * b.get l (p % c.stride))).sum)
      else c.data[p]? := by
  unfold dgemmSerialTransNot
  refine foldl_region_getElem? (List.range a.rows) _
    (fun q => q / c.stride < a.cols ∧ q % c.stride < b.cols)
    (fun l q => alpha * a.get l (q / c.stride) * b.get l (q % c.stride)) c ?pres ?hT p
  case pres =>
    intro c2 l
    refine foldl_preserve _ (fun g => g.stride = c2.stride) ?step (List.range a.cols) c2 rfl
    intro g i h
    dsimp only
    split
    · rw [addRow_stride]; exact h
    · exact h
  case hT =>
    intro c2 h2 l q
    have hlayer := rowsFold_getElem? a.cols b.cols
      (fun c3 i =>
        let tmp := alpha * a.get l i
        if tmp ≠ 0 then addRow c3 i b.cols (fun j => tmp * b.get l j) else c3)
      (fun i j x => x + alpha * a.get l i * b.get l j) c2 (h2 ▸ hw) ?lpres ?lS q
    case lpres =>
      intro c3 i
      dsimp only
      split
      · rw [addRow_stride]
      · rfl
    case lS =>
      intro c3 h3 i r
      have hstep := iteAddRow_getElem? c3 i b.cols (alpha * a.get l i ≠ 0)
        (fun j => alpha * a.get l i * b.get l j)
        (fun hnc j => by simp [not_not.mp hnc]) r
      rw [h3] at hstep
      exact hstep
    rw [h2] at hlayer
    exact hlayer

theorem dgemmSerialTransTrans_getElem? (a b c : general ℚ) (alpha : ℚ)
    (hw : b.rows ≤ c.stride) (p : Nat) :
    (dgemmSerialTransTrans a b c alpha).data[p]? =
      if p / c.stride < a.cols ∧ p % c.stride < b.rows then
        (c.data[p]?).map (fun x => x + ((List.range a.rows).map
          (fun l => alpha * a.get l (p / c.stride) * b.get (p % c.stride) l)).sum)
      else c.data[p]? := by
  unfold dgemmSerialTransTrans
  refine foldl_region_getElem? (List.range a.rows) _
    (fun q => q / c.stride < a.cols ∧ q % c.stride < b.rows)
    (fun l q => alpha * a.get l (q / c.stride) * b.get (q % c.stride) l) c ?pres ?hT p
  case pres =>
    intro c2 l
    refine foldl_preserve _ (fun g => g.stride = c2.stride) ?step (List.range a.cols) c2 rfl
    intro g i h
    dsimp only
    split
    · rw [addRow_stride]; exact h
    · exact h
  case hT =>
    intro c2 h2 l q
    have hlayer := rowsFold_getElem? a.cols b.rows
      (fun c3 i =>
        let v := a.get l i
        if v ≠ 0 then addRow c3 i b.rows (fun j => (alpha * v) * b.get j l) else c3)
      (fun i j x => x + alpha * a.get l i * b.get j l) c2 (h2 ▸ hw) ?lpres ?lS q
    case lpres =>
      intro c3 i
      dsimp only
      split
      · rw [addRow_stride]
      · rfl
    case lS =>
      intro c3 h3 i r
      have hstep := iteAddRow_getElem? c3 i b.rows (a.get l i ≠ 0)
        (fun j => alpha * a.get l i * b.get j l)
        (fun hnc j => by simp [not_not.mp hnc]) r
      rw [h3] at hstep
      exact hstep
    rw [h2] at hlayer
    exact hlayer

theorem dgemmSerialNotTrans_getElem? (a b c : general ℚ) (alpha : ℚ)
    (hw : b.rows ≤ c.stride) (p : Nat) :
    (dgemmSerialNotTrans a b c alpha).data[p]? =
      if p / c.stride < a.rows ∧ p % c.stride < b.rows then
        (c.data[p]?).map (fun x => x + alpha * ((List.range b.cols).map
          (fun l => a.get (p / c.stride) l * b.get (p % c.stride) l)).sum)
      else c.data[p]? := by
  unfold dgemmSerialNotTrans
  refine rowsFold_getElem? a.rows b.rows _
    (fun i j x => x + alpha * ((List.range b.cols).map
      (fun l => a.get i l * b.get j l)).sum) c hw ?pres ?hS p
  case pres =>
    intro c2 i
    rw [addRow_stride]
  case hS =>
    intro c2 h2 i q
    have hstep := addRow_getElem? c2 i b.rows
      (fun j => alpha * (List.range b.cols).foldl (fun t l => t + a.get i l * b.get j l) 0) q
    rw [h2] at hstep
    rw [hstep]
    simp only [foldl_add_eq_sum, zero_add]

theorem naiveDgemm_getElem? (tA tB : Transpose) (a b c : general ℚ) (alpha : ℚ) (K : Nat)
    (hw : c.cols ≤ c.stride) (p : Nat) :
    (naiveDgemm tA tB a b c alpha K).data[p]? =
      if p / c.stride < c.rows ∧ p % c.stride < c.cols then
        (c.data[p]?).map (fun x => x + alpha * ((List.range K).map
          (fun l => opGet tA a (p / c.stride) l * opGet tB b l (p % c.stride))).sum)
      else c.data[p]? := by
  unfold naiveDgemm
  refine rowsFold_getElem? c.rows c.cols _
    (fun i j x => x + alpha * ((List.range K).map
      (fun l => opGet tA a i l * opGet tB b l j)).sum) c hw ?pres ?hS p
  case pres =>
    intro c2 i
    refine foldl_preserve _ (fun g => g.stride = c2.stride) ?step (List.range c.cols) c2 rfl
    intro g j h
    exact h
  case hS =>
    intro c2 h2 i q
    have hstep := addRow_getElem? c2 i c.cols
      (fun j => alpha * ((List.range K).map
        (fun l => opGet tA a i l * opGet tB b l j)).sum) q
    rw [h2] at hstep
    exact hstep

theorem scaleRows_getElem? (m : Nat) (beta : ℚ) (cm : general ℚ)
    (hw : cm.cols ≤ cm.stride) (p : Nat) :
    (scaleRows m beta cm).data[p]? =
      if p / cm.stride < m ∧ p % cm.stride < cm.cols then
        (cm.data[p]?).map (fun x => x * beta)
      else cm.data[p]? := by
  unfold scaleRows
  refine rowsFold_getElem? m cm.cols _ (fun i j x => x * beta) cm hw ?pres ?hS p
  case pres =>
    intro c2 i
    refine foldl_preserve _ (fun g => g.stride = c2.stride) ?step (List.range cm.cols) c2 rfl
    intro g j h
    exact h
  case hS =>
    intro c2 h2 i q
    have hstep := scaleRowLoop_getElem? c2 i cm.cols beta q
    rw [h2] at hstep
    exact hstep

/-- Pull a scalar factor out of a mapped sum. -/
theorem sum_map_mul_assoc (L : List Nat) (alpha : ℚ) (f g : Nat → ℚ) :
    (L.map (fun l => alpha * f l * g l)).sum = alpha * (L.map (fun l => f l * g l)).sum := by
  have hfun : (fun l => alpha * f l * g l) = (fun l => alpha * (f l * g l)) := by
    funext l
    ring
  rw [hfun, List.sum_map_mul_left]

/-- Combined characterization of the serial kernel set, in `op(A)`/`op(B)`
form: for valid flags and consistent contraction dimensions, element
`(i, j)` of the written region gains
`alpha * (sum over the contraction of op(a)[i][l] * op(b)[l][j])`. -/
theorem dgemmSerial_getElem? (tA tB : Transpose) (a b c : general ℚ) (alpha : ℚ)
    (hA : tA ≠ Transpose.ConjTrans) (hB : tB ≠ Transpose.ConjTrans)
    (hw : opCols tB b ≤ c.stride)
    (hK : opRows tB b = opCols tA a)
    (p : Nat) :
    (dgemmSerial tA tB a b c alpha).data[p]? =
      if p / c.stride < opRows tA a ∧ p % c.stride < opCols tB b then
        (c.data[p]?).map (fun x => x + alpha * ((List.range (opCols tA a)).map
          (fun l => opGet tA a (p / c.stride) l * opGet tB b l (p % c.stride))).sum)
      else c.data[p]? := by
  cases tA with
  | ConjTrans => exact absurd rfl hA
  | NoTrans =>
      cases tB with
      | ConjTrans => exact absurd rfl hB
      | NoTrans =>
          rw [show dgemmSerial Transpose.NoTrans Transpose.NoTrans a b c alpha =
            dgemmSerialNotNot a b c alpha from rfl]
          rw [dgemmSerialNotNot_getElem? a b c alpha hw p]
          rw [show opRows Transpose.NoTrans a = a.rows from rfl,
            show opCols Transpose.NoTrans b = b.cols from rfl,
            show opCols Transpose.NoTrans a = a.cols from rfl]
          rw [sum_map_mul_assoc (List.range a.cols) alpha
            (fun l => a.get (p / c.stride) l) (fun l => b.get l (p % c.stride))]
          rfl
      | Trans =>
          rw [show dgemmSerial Transpose.NoTrans Transpose.Trans a b c alpha =
            dgemmSerialNotTrans a b c alpha from rfl]
          rw [dgemmSerialNotTrans_getElem? a b c alpha hw p]
          rw [show opRows Transpose.NoTrans a = a.rows from rfl,
            show opCols Transpose.Trans b = b.rows from rfl,
            show opCols Transpose.NoTrans a = a.cols from rfl]
          have hbc : b.cols = a.cols := hK
          rw [hbc]
          rfl
  | Trans =>
      cases tB with
      | ConjTrans => exact absurd rfl hB
      | NoTrans =>
          rw [show dgemmSerial Transpose.Trans Transpose.NoTrans a b c alpha =
            dgemmSerialTransNot a b c alpha from rfl]
          rw [dgemmSerialTransNot_getElem? a b c alpha hw p]
          rw [show opRows Transpose.Trans a = a.cols from rfl,
            show opCols Transpose.NoTrans b = b.cols from rfl,
            show opCols Transpose.Trans a = a.rows from rfl]
          rw [sum_map_mul_assoc (List.range a.rows) alpha
            (fun l => a.get l (p / c.stride)) (fun l => b.get l (p % c.stride))]
          rfl
      | Trans =>
          rw [show dgemmSerial Transpose.Trans Transpose.Trans a b c alpha =
            dgemmSerialTransTrans a b c alpha from rfl]
          rw [dgemmSerialTransTrans_getElem? a b c alpha hw p]
          rw [show opRows Transpose.Trans a = a.cols from rfl,
            show opCols Transpose.Trans b = b.rows from rfl,
            show opCols Transpose.Trans a = a.rows from rfl]
          rw [sum_map_mul_assoc (List.range a.rows) alpha
            (fun l => a.get l (p / c.stride)) (fun l => b.get (p % c.stride) l)]
          rfl

/-!  Sub-views, preservation, and the chunked contraction walk. -/

theorem general.view_get (g : general R) (r c0 nr nc i j : Nat) :
    (g.view r c0 nr nc).get i j = g.get (r + i) (c0 + j) := by
  unfold general.view general.get
  simp only [List.getD_eq_getElem?_getD, List.getElem?_drop]
  have harith : r * g.stride + c0 + (i * g.stride + j) = (r + i) * g.stride + (c0 + j) := by
    ring
  rw [harith]

theorem general.view_getElem? (g : general R) (r c0 nr nc : Nat) (q : Nat) :
    (g.view r c0 nr nc).data[q]? = g.data[r * g.stride + c0 + q]? := by
  unfold general.view
  simp only [List.getElem?_drop]

theorem foldl_stride_invariant {α : Type} (ts : List α) (T : general ℚ → α → general ℚ)
    (h : ∀ g t, (T g t).stride = g.stride) (c : general ℚ) :
    (ts.foldl T c).stride = c.stride := by
  induction ts generalizing c with
  | nil => rfl
  | cons t ts ih => rw [List.foldl_cons, ih, h]

theorem foldl_length_invariant {α : Type} (ts : List α) (T : general ℚ → α → general ℚ)
    (h : ∀ g t, (T g t).data.length = g.data.length) (c : general ℚ) :
    (ts.foldl T c).data.length = c.data.length := by
  induction ts generalizing c with
  | nil => rfl
  | cons t ts ih => rw [List.foldl_cons, ih, h]

theorem iteAddRow_stride (cond : Prop) [Decidable cond] (c2 : general ℚ) (i w : Nat)
    (f : Nat → ℚ) : (if cond then addRow c2 i w f else c2).stride = c2.stride := by
  split
  · rw [addRow_stride]
  · rfl

theorem iteAddRow_length (cond : Prop) [Decidable cond] (c2 : general ℚ) (i w : Nat)
    (f : Nat → ℚ) : (if cond then addRow c2 i w f else c2).data.length = c2.data.length := by
  split
  · rw [addRow_length]
  · rfl

theorem dgemmSerial_stride (tA tB : Transpose) (a b c : general ℚ) (alpha : ℚ) :
    (dgemmSerial tA tB a b c alpha).stride = c.stride := by
  cases tA with
  | ConjTrans => cases tB <;> rfl
  | NoTrans =>
      cases tB with
      | ConjTrans => rfl
      | NoTrans =>
          refine foldl_stride_invariant _ _ ?_ c
          intro g i
          exact foldl_stride_invariant _ _ (fun g2 l => iteAddRow_stride _ g2 _ _ _) g
      | Trans =>
          refine foldl_stride_invariant _ _ ?_ c
          intro g i
          exact addRow_stride g i _ _
  | Trans =>
      cases tB with
      | ConjTrans => rfl
      | NoTrans =>
          refine foldl_stride_invariant _ _ ?_ c
          intro g l
          exact foldl_stride_invariant _ _ (fun g2 i => iteAddRow_stride _ g2 _ _ _) g
      | Trans =>
          refine foldl_stride_invariant _ _ ?_ c
          intro g l
          exact foldl_stride_invariant _ _ (fun g2 i => iteAddRow_stride _ g2 _ _ _) g

theorem dgemmSerial_length (tA tB : Transpose) (a b c : general ℚ) (alpha : ℚ) :
    (dgemmSerial tA tB a b c alpha).data.length = c.data.length := by
  cases tA with
  | ConjTrans => cases tB <;> rfl
  | NoTrans =>
      cases tB with
      | ConjTrans => rfl
      | NoTrans =>
          refine foldl_length_invariant _ _ ?_ c
          intro g i
          exact foldl_length_invariant _ _ (fun g2 l => iteAddRow_length _ g2 _ _ _) g
      | Trans =>
          refine foldl_length_invariant _ _ ?_ c
          intro g i
          exact addRow_length g i _ _
  | Trans =>
      cases tB with
      | ConjTrans => rfl
      | NoTrans =>
          refine foldl_length_invariant _ _ ?_ c
          intro g l
          exact foldl_length_invariant _ _ (fun g2 i => iteAddRow_length _ g2 _ _ _) g
      | Trans =>
          refine foldl_length_invariant _ _ ?_ c
          intro g l
          exact foldl_length_invariant _ _ (fun g2 i => iteAddRow_length _ g2 _ _ _) g

/-- Splitting a buffer that was written through a dropped-prefix alias. -/
theorem take_append_getElem? {α : Type} (l : List α) (off : Nat) (sub : List α)
    (hoff : off ≤ l.length) (p : Nat) :
    (l.take off ++ sub)[p]? = if p < off then l[p]? else sub[p - off]? := by
  rw [List.getElem?_append]
  rw [List.length_take]
  have hmin : min off l.length = off := Nat.min_eq_left hoff
  rw [hmin]
  by_cases hp : p < off
  · rw [if_pos hp, if_pos hp, List.getElem?_take, if_pos hp]
  · rw [if_neg hp, if_neg hp]

/-- The chunk starts of the contraction walk tile `List.range K` exactly. -/
theorem blockStarts_flatten (K : Nat) :
    (blockStarts K).flatMap (fun k => List.range' k (min blockSize (K - k))) =
      List.range K := by
  have hbs : blockSize = 64 := rfl
  have haux : ∀ q : Nat,
      (((List.range q).map (fun t => t * blockSize)).flatMap
        (fun k => List.range' k (min blockSize (K - k)))) =
      List.range (min (q * blockSize) K) := by
    intro q
    induction q with
    | zero => simp
    | succ q ih =>
        rw [List.range_succ, List.map_append, List.flatMap_append, ih]
        simp only [List.map_cons, List.map_nil, List.flatMap_cons, List.flatMap_nil,
          List.append_nil]
        have hq1 : (q + 1) * blockSize = q * blockSize + blockSize := by ring
        by_cases hK : K ≤ q * blockSize
        · have h0 : min blockSize (K - q * blockSize) = 0 := by omega
          have h1 : min (q * blockSize) K = K := by omega
          have h2 : min ((q + 1) * blockSize) K = K := by omega
          rw [h0, h1, h2]
          simp
        · have h1 : min (q * blockSize) K = q * blockSize := by omega
          rw [h1, List.range_eq_range', List.range_eq_range']
          have happ := List.range'_append 0 (q * blockSize)
            (min blockSize (K - q * blockSize)) 1
          simp only [Nat.zero_add, Nat.one_mul] at happ
          rw [happ]
          congr 1
          omega
  have hfin := haux ((K + blockSize - 1) / blockSize)
  have hmin : min ((K + blockSize - 1) / blockSize * blockSize) K = K := by
    rw [hbs] at *
    omega
  rw [hmin] at hfin
  exact hfin

/-- Walking the contraction dimension in clipped `blockSize` chunks sums the
same terms as walking it directly. -/
theorem sum_over_chunks (K : Nat) (F : Nat → ℚ) :
    ((blockStarts K).map (fun k =>
      ((List.range (min blockSize (K - k))).map (fun l => F (k + l))).sum)).sum =
    ((List.range K).map F).sum := by
  have hchunk : ∀ k : Nat,
      ((List.range (min blockSize (K - k))).map (fun l => F (k + l))).sum =
      ((List.range' k (min blockSize (K - k))).map F).sum := by
    intro k
    rw [List.range'_eq_map_range, List.map_map]
    rfl
  have hmapcong : (blockStarts K).map (fun k =>
      ((List.range (min blockSize (K - k))).map (fun l => F (k + l))).sum) =
      (blockStarts K).map (fun k =>
        ((List.range' k (min blockSize (K - k))).map F).sum) := by
    exact List.map_congr_left (fun k _ => hchunk k)
  rw [hmapcong]
  have hflat : ∀ (ts : List Nat) (g : Nat → List Nat),
      (ts.map (fun t => ((g t).map F).sum)).sum = ((ts.flatMap g).map F).sum := by
    intro ts g
    induction ts with
    | nil => rfl
    | cons t ts ih =>
        simp only [List.map_cons, List.sum_cons, List.flatMap_cons, List.map_append,
          List.sum_append, ih]
  rw [hflat (blockStarts K) (fun k => List.range' k (min blockSize (K - k)))]
  rw [blockStarts_flatten K]

/-!  The flag-selected operand sub-views of one contraction chunk. -/

theorem opRows_aSub (tA : Transpose) (hA : tA ≠ Transpose.ConjTrans) (a : general ℚ)
    (k i0 lenk leni : Nat) :
    opRows tA (if tA.isTrans then a.view k i0 lenk leni else a.view i0 k leni lenk) =
      leni := by
  cases tA with
  | ConjTrans => exact absurd rfl hA
  | NoTrans => rfl
  | Trans => rfl

theorem opCols_aSub (tA : Transpose) (hA : tA ≠ Transpose.ConjTrans) (a : general ℚ)
    (k i0 lenk leni : Nat) :
    opCols tA (if tA.isTrans then a.view k i0 lenk leni else a.view i0 k leni lenk) =
      lenk := by
  cases tA with
  | ConjTrans => exact absurd rfl hA
  | NoTrans => rfl
  | Trans => rfl

theorem opRows_bSub (tB : Transpose) (hB : tB ≠ Transpose.ConjTrans) (b : general ℚ)
    (j0 k lenj lenk : Nat) :
    opRows tB (if tB.isTrans then b.view j0 k lenj lenk else b.view k j0 lenk lenj) =
      lenk := by
  cases tB with
  | ConjTrans => exact absurd rfl hB
  | NoTrans => rfl
  | Trans => rfl

theorem opCols_bSub (tB : Transpose) (hB : tB ≠ Transpose.ConjTrans) (b : general ℚ)
    (j0 k lenj lenk : Nat) :
    opCols tB (if tB.isTrans then b.view j0 k lenj lenk else b.view k j0 lenk lenj) =
      lenj := by
  cases tB with
  | ConjTrans => exact absurd rfl hB
  | NoTrans => rfl
  | Trans => rfl

theorem opGet_aSub (tA : Transpose) (hA : tA ≠ Transpose.ConjTrans) (a : general ℚ)
    (k i0 lenk leni i l : Nat) :
    opGet tA (if tA.isTrans then a.view k i0 lenk leni else a.view i0 k leni lenk) i l =
      opGet tA a (i0 + i) (k + l) := by
  cases tA with
  | ConjTrans => exact absurd rfl hA
  | NoTrans => exact a.view_get i0 k leni lenk i l
  | Trans => exact a.view_get k i0 lenk leni l i

theorem opGet_bSub (tB : Transpose) (hB : tB ≠ Transpose.ConjTrans) (b : general ℚ)
    (j0 k lenj lenk l j : Nat) :
    opGet tB (if tB.isTrans then b.view j0 k lenj lenk else b.view k j0 lenk lenj) l j =
      opGet tB b (k + l) (j0 + j) := by
  cases tB with
  | ConjTrans => exact absurd rfl hB
  | NoTrans => exact b.view_get k j0 lenk lenj l j
  | Trans => exact b.view_get j0 k lenj lenk j l

/-- Pointwise characterization of one tile task: the clipped
`blockSize × blockSize` region of `c` at `(i0, j0)` gains the full
contraction sum (accumulated chunk by chunk), everything else is
untouched. -/
theorem processTile_getElem? (tA tB : Transpose) (a b c : general ℚ) (alpha : ℚ) (K : Nat)
    (hA : tA ≠ Transpose.ConjTrans) (hB : tB ≠ Transpose.ConjTrans)
    (hcw : c.cols ≤ c.stride)
    (i0 j0 : Nat) (hi0 : i0 < c.rows) (hj0 : j0 < c.cols)
    (hoff : i0 * c.stride + j0 ≤ c.data.length)
    (p : Nat) :
    (processTile tA tB a b alpha K c (i0, j0)).data[p]? =
      if i0 ≤ p / c.stride ∧ p / c.stride < i0 + min blockSize (c.rows - i0) ∧
         j0 ≤ p % c.stride ∧ p % c.stride < j0 + min blockSize (c.cols - j0) then
        (c.data[p]?).map (fun x => x + alpha * ((List.range K).map
          (fun l => opGet tA a (p / c.stride) l * opGet tB b l (p % c.stride))).sum)
      else c.data[p]? := by
  have hdm : p / c.stride * c.stride + p % c.stride = p := Nat.div_add_mod' p c.stride
  have hlenj_le : min blockSize (c.cols - j0) ≤ c.stride := by omega
  have hleni_pos : 0 < min blockSize (c.rows - i0) := by
    have hbs : blockSize = 64 := rfl
    omega
  have hlenj_pos : 0 < min blockSize (c.cols - j0) := by
    have hbs : blockSize = 64 := rfl
    omega
  -- characterize the chunked contraction walk over the c sub-view
  have hchunks := foldl_region_getElem? (blockStarts K)
    (fun cs k =>
      let lenk := min blockSize (K - k)
      let aSub := if tA.isTrans then a.view k i0 lenk (min blockSize (c.rows - i0))
        else a.view i0 k (min blockSize (c.rows - i0)) lenk
      let bSub := if tB.isTrans then b.view j0 k (min blockSize (c.cols - j0)) lenk
        else b.view k j0 lenk (min blockSize (c.cols - j0))
      dgemmSerial tA tB aSub bSub cs alpha)
    (fun q => q / c.stride < min blockSize (c.rows - i0) ∧
      q % c.stride < min blockSize (c.cols - j0))
    (fun k q => alpha * ((List.range (min blockSize (K - k))).map
      (fun l => opGet tA a (i0 + q / c.stride) (k + l) *
        opGet tB b (k + l) (j0 + q % c.stride))).sum)
    (c.view i0 j0 (min blockSize (c.rows - i0)) (min blockSize (c.cols - j0)))
    ?pres ?hT
  case pres =>
    intro cs k
    exact dgemmSerial_stride tA tB _ _ cs alpha
  case hT =>
    intro cs hcs k q
    have hcs' : cs.stride = c.stride := hcs
    have hser := dgemmSerial_getElem? tA tB
      (if tA.isTrans then a.view k i0 (min blockSize (K - k)) (min blockSize (c.rows - i0))
        else a.view i0 k (min blockSize (c.rows - i0)) (min blockSize (K - k)))
      (if tB.isTrans then b.view j0 k (min blockSize (c.cols - j0)) (min blockSize (K - k))
        else b.view k j0 (min blockSize (K - k)) (min blockSize (c.cols - j0)))
      cs alpha hA hB
      (by rw [opCols_bSub tB hB, hcs']; omega)
      (by rw [opRows_bSub tB hB, opCols_aSub tA hA])
      q
    rw [opRows_aSub tA hA, opCols_bSub tB hB, opCols_aSub tA hA] at hser
    simp only [opGet_aSub tA hA, opGet_bSub tB hB] at hser
    rw [hcs'] at hser
    exact hser
  -- unfold the tile body and split the written-back buffer
  show (c.data.take (i0 * c.stride + j0) ++
    ((blockStarts K).foldl (fun cs k =>
      let lenk := min blockSize (K - k)
      let aSub := if tA.isTrans then a.view k i0 lenk (min blockSize (c.rows - i0))
        else a.view i0 k (min blockSize (c.rows - i0)) lenk
      let bSub := if tB.isTrans then b.view j0 k (min blockSize (c.cols - j0)) lenk
        else b.view k j0 lenk (min blockSize (c.cols - j0))
      dgemmSerial tA tB aSub bSub cs alpha)
      (c.view i0 j0 (min blockSize (c.rows - i0)) (min blockSize (c.cols - j0)))).data)[p]? = _
  rw [take_append_getElem? c.data (i0 * c.stride + j0) _ hoff p]
  by_cases hcond : i0 ≤ p / c.stride ∧ p / c.stride < i0 + min blockSize (c.rows - i0) ∧
      j0 ≤ p % c.stride ∧ p % c.stride < j0 + min blockSize (c.cols - j0)
  · rw [if_pos hcond]
    obtain ⟨h1, h2, h3, h4⟩ := hcond
    have hmul1 : i0 * c.stride ≤ p / c.stride * c.stride :=
      Nat.mul_le_mul_right c.stride h1
    have hplarge : ¬ p < i0 * c.stride + j0 := by omega
    rw [if_neg hplarge]
    have hqeq : p - (i0 * c.stride + j0) =
        (p / c.stride - i0) * c.stride + (p % c.stride - j0) := by
      have hsm : (p / c.stride - i0) * c.stride =
          p / c.stride * c.stride - i0 * c.stride := Nat.sub_mul _ _ _
      omega
    have hqdiv : (p - (i0 * c.stride + j0)) / c.stride = p / c.stride - i0 := by
      refine Nat.div_eq_of_lt_le (by omega) ?hi
      have hexp : (p / c.stride - i0 + 1) * c.stride =
          (p / c.stride - i0) * c.stride + c.stride := by ring
      omega
    have hq2 := Nat.div_add_mod' (p - (i0 * c.stride + j0)) c.stride
    rw [hqdiv] at hq2
    have hqmod : (p - (i0 * c.stride + j0)) % c.stride = p % c.stride - j0 := by omega
    have hc2 := hchunks (p - (i0 * c.stride + j0))
    rw [hqdiv, hqmod, if_pos (by constructor <;> omega)] at hc2
    rw [hc2, general.view_getElem?]
    have hback : i0 * c.stride + j0 + (p - (i0 * c.stride + j0)) = p := by omega
    rw [hback]
    have hiq : i0 + (p / c.stride - i0) = p / c.stride := by omega
    have hjq : j0 + (p % c.stride - j0) = p % c.stride := by omega
    rw [hiq, hjq]
    rw [List.sum_map_mul_left]
    rw [sum_over_chunks K
      (fun l => opGet tA a (p / c.stride) l * opGet tB b l (p % c.stride))]
  · rw [if_neg hcond]
    by_cases hsmall : p < i0 * c.stride + j0
    · rw [if_pos hsmall]
    · rw [if_neg hsmall]
      have hreg : ¬ ((p - (i0 * c.stride + j0)) / c.stride < min blockSize (c.rows - i0) ∧
          (p - (i0 * c.stride + j0)) % c.stride < min blockSize (c.cols - j0)) := by
        intro hq
        have hq2 := Nat.div_add_mod' (p - (i0 * c.stride + j0)) c.stride
        have hpform : p = (i0 + (p - (i0 * c.stride + j0)) / c.stride) * c.stride +
            (j0 + (p - (i0 * c.stride + j0)) % c.stride) := by
          have hexp : (i0 + (p - (i0 * c.stride + j0)) / c.stride) * c.stride =
              i0 * c.stride + (p - (i0 * c.stride + j0)) / c.stride * c.stride := by ring
          omega
        have hjlt : j0 + (p - (i0 * c.stride + j0)) % c.stride < c.stride := by omega
        have hdiv : p / c.stride = i0 + (p - (i0 * c.stride + j0)) / c.stride := by
          refine Nat.div_eq_of_lt_le (by omega) ?hi2
          have hexp2 : (i0 + (p - (i0 * c.stride + j0)) / c.stride + 1) * c.stride =
              (i0 + (p - (i0 * c.stride + j0)) / c.stride) * c.stride + c.stride := by ring
          omega
        have hpform2 : p = c.stride * (i0 + (p - (i0 * c.stride + j0)) / c.stride) +
            (j0 + (p - (i0 * c.stride + j0)) % c.stride) := by
          rw [Nat.mul_comm]
          exact hpform
        have hmod : p % c.stride = j0 + (p - (i0 * c.stride + j0)) % c.stride := by
          conv_lhs => rw [hpform2]
          rw [Nat.mul_add_mod, Nat.mod_eq_of_lt hjlt]
        have hc1 : i0 ≤ p / c.stride := by
          rw [hdiv]
          exact Nat.le_add_right i0 _
        have hc2 : p / c.stride < i0 + min blockSize (c.rows - i0) := by
          rw [hdiv]
          exact Nat.add_lt_add_left hq.1 i0
        have hc3 : j0 ≤ p % c.stride := by
          rw [hmod]
          exact Nat.le_add_right j0 _
        have hc4 : p % c.stride < j0 + min blockSize (c.cols - j0) := by
          rw [hmod]
          exact Nat.add_lt_add_left hq.2 j0
        exact hcond ⟨hc1, hc2, hc3, hc4⟩
      rw [hchunks (p - (i0 * c.stride + j0)), if_neg hreg, general.view_getElem?]
      have hback : i0 * c.stride + j0 + (p - (i0 * c.stride + j0)) = p := by omega
      rw [hback]

/-!  The tile task list is a strict partition of the output index space. -/

theorem mem_blockStarts {n k : Nat} :
    k ∈ blockStarts n ↔ k % blockSize = 0 ∧ k < n := by
  have hbs : blockSize = 64 := rfl
  simp only [blockStarts, List.mem_map, List.mem_range, hbs]
  constructor
  · rintro ⟨q, hq, rfl⟩
    constructor
    · omega
    · omega
  · rintro ⟨hmod, hlt⟩
    exact ⟨k / 64, by omega, by omega⟩

theorem mem_tileTasks {rows cols i0 j0 : Nat} :
    (i0, j0) ∈ tileTasks rows cols ↔
      (i0 % blockSize = 0 ∧ i0 < rows) ∧ (j0 % blockSize = 0 ∧ j0 < cols) := by
  simp only [tileTasks, List.mem_flatMap, List.mem_map]
  constructor
  · rintro ⟨i, hi, j, hj, heq⟩
    cases heq
    exact ⟨mem_blockStarts.mp hi, mem_blockStarts.mp hj⟩
  · rintro ⟨h1, h2⟩
    exact ⟨i0, mem_blockStarts.mpr h1, j0, mem_blockStarts.mpr h2, rfl⟩

theorem blockStarts_nodup (n : Nat) : (blockStarts n).Nodup := by
  refine List.Nodup.map ?inj (List.nodup_range _)
  intro x y hxy
  have hbs : blockSize = 64 := rfl
  have hxy2 : x * blockSize = y * blockSize := hxy
  rw [hbs] at hxy2
  omega

theorem tileTasks_nodup (rows cols : Nat) : (tileTasks rows cols).Nodup := by
  unfold tileTasks
  have h2 := blockStarts_nodup cols
  have h1 := blockStarts_nodup rows
  revert h1
  induction blockStarts rows with
  | nil => intro h1; exact List.nodup_nil
  | cons i l ih =>
      intro h1
      rw [List.flatMap_cons]
      obtain ⟨hnotmem, hrest⟩ := List.nodup_cons.mp h1
      refine List.Nodup.append ?na (ih hrest) ?disj
      · refine List.Nodup.map ?injj h2
        intro x y hxy
        exact congrArg Prod.snd hxy
      · intro x hx1 hx2
        obtain ⟨j, hj, rfl⟩ := List.mem_map.mp hx1
        obtain ⟨i2, hi2, hx3⟩ := List.mem_flatMap.mp hx2
        obtain ⟨j2, hj2, heq⟩ := List.mem_map.mp hx3
        have hieq : i2 = i := congrArg Prod.fst heq
        rw [hieq] at hi2
        exact hnotmem hi2

theorem tileTasks_cover (rows cols i j : Nat) (hi : i < rows) (hj : j < cols) :
    ∃! t, t ∈ tileTasks rows cols ∧ tileCovers rows cols t i j := by
  have hbs : blockSize = 64 := rfl
  refine ⟨(i / blockSize * blockSize, j / blockSize * blockSize), ⟨?mem, ?cov⟩, ?uniq⟩
  case mem =>
    refine mem_tileTasks.mpr ⟨⟨?m1, ?m2⟩, ⟨?m3, ?m4⟩⟩ <;> rw [hbs] <;> omega
  case cov =>
    refine ⟨?c1, ?c2, ?c3, ?c4⟩ <;> simp only [hbs] <;> omega
  case uniq =>
    rintro ⟨i0, j0⟩ ⟨hmem, hcov⟩
    obtain ⟨⟨hm1, hm2⟩, hm3, hm4⟩ := mem_tileTasks.mp hmem
    obtain ⟨hc1, hc2, hc3, hc4⟩ := hcov
    simp only [hbs] at hm1 hm3 hc1 hc2 hc3 hc4 ⊢
    have hieq : i0 = i / 64 * 64 := by omega
    have hjeq : j0 = j / 64 * 64 := by omega
    rw [hieq, hjeq]

theorem processTile_stride (tA tB : Transpose) (a b : general ℚ) (alpha : ℚ) (K : Nat)
    (c2 : general ℚ) (t : Nat × Nat) :
    (processTile tA tB a b alpha K c2 t).stride = c2.stride := rfl

theorem processTile_rows (tA tB : Transpose) (a b : general ℚ) (alpha : ℚ) (K : Nat)
    (c2 : general ℚ) (t : Nat × Nat) :
    (processTile tA tB a b alpha K c2 t).rows = c2.rows := rfl

theorem processTile_cols (tA tB : Transpose) (a b : general ℚ) (alpha : ℚ) (K : Nat)
    (c2 : general ℚ) (t : Nat × Nat) :
    (processTile tA tB a b alpha K c2 t).cols = c2.cols := rfl

theorem processTile_length (tA tB : Transpose) (a b : general ℚ) (alpha : ℚ) (K : Nat)
    (c2 : general ℚ) (t : Nat × Nat) :
    (processTile tA tB a b alpha K c2 t).data.length = c2.data.length := by
  obtain ⟨i0, j0⟩ := t
  show (c2.data.take (i0 * c2.stride + j0) ++
    ((blockStarts K).foldl _ (c2.view i0 j0 (min blockSize (c2.rows - i0))
      (min blockSize (c2.cols - j0)))).data).length = c2.data.length
  rw [List.length_append, List.length_take]
  rw [foldl_length_invariant _ _ (fun g k => dgemmSerial_length tA tB _ _ g alpha) _]
  show min (i0 * c2.stride + j0) c2.data.length +
    (c2.data.drop (i0 * c2.stride + j0)).length = c2.data.length
  rw [List.length_drop]
  omega

/-- Pointwise characterization of the tiled worker-pool path: every logical
output element gains the full contraction sum; everything else (stride
padding, tail of the buffer) is untouched. -/
theorem dgemmTiled_getElem? (tA tB : Transpose) (a b c : general ℚ) (alpha : ℚ) (K : Nat)
    (hA : tA ≠ Transpose.ConjTrans) (hB : tB ≠ Transpose.ConjTrans)
    (hcw : c.cols ≤ c.stride)
    (hclen : c.rows = 0 ∨ c.cols = 0 ∨ (c.rows - 1) * c.stride + c.cols ≤ c.data.length)
    (p : Nat) :
    (dgemmTiled tA tB a b c alpha K).data[p]? =
      if p / c.stride < c.rows ∧ p % c.stride < c.cols then
        (c.data[p]?).map (fun x => x + alpha * ((List.range K).map
          (fun l => opGet tA a (p / c.stride) l * opGet tB b l (p % c.stride))).sum)
      else c.data[p]? := by
  have hInvStep : ∀ (c2 : general ℚ) (t : Nat × Nat),
      (c2.stride = c.stride ∧ c2.rows = c.rows ∧ c2.cols = c.cols ∧
        c2.data.length = c.data.length) →
      ((processTile tA tB a b alpha K c2 t).stride = c.stride ∧
        (processTile tA tB a b alpha K c2 t).rows = c.rows ∧
        (processTile tA tB a b alpha K c2 t).cols = c.cols ∧
        (processTile tA tB a b alpha K c2 t).data.length = c.data.length) := by
    intro c2 t h
    rw [processTile_stride, processTile_rows, processTile_cols, processTile_length]
    exact h
  have hS : ∀ (c2 : general ℚ),
      (c2.stride = c.stride ∧ c2.rows = c.rows ∧ c2.cols = c.cols ∧
        c2.data.length = c.data.length) →
      ∀ t, t ∈ tileTasks c.rows c.cols → ∀ q,
      (processTile tA tB a b alpha K c2 t).data[q]? =
        if t.1 ≤ q / c.stride ∧ q / c.stride < t.1 + min blockSize (c.rows - t.1) ∧
           t.2 ≤ q % c.stride ∧ q % c.stride < t.2 + min blockSize (c.cols - t.2) then
          (c2.data[q]?).map (fun x => x + alpha * ((List.range K).map
            (fun l => opGet tA a (q / c.stride) l * opGet tB b l (q % c.stride))).sum)
        else c2.data[q]? := by
    rintro c2 ⟨hs2, hr2, hc2, hl2⟩ ⟨i0, j0⟩ hmem q
    obtain ⟨⟨hm1, hm2⟩, hm3, hm4⟩ := mem_tileTasks.mp hmem
    have hrowspos : 0 < c.rows := by omega
    have hcolspos : 0 < c.cols := by omega
    have hoff2 : i0 * c2.stride + j0 ≤ c2.data.length := by
      rcases hclen with h0 | h0 | hbound
      · omega
      · omega
      · have hmono : i0 * c.stride ≤ (c.rows - 1) * c.stride :=
          Nat.mul_le_mul_right c.stride (by omega)
        rw [hs2, hl2]
        omega
    have := processTile_getElem? tA tB a b c2 alpha K hA hB
      (by rw [hs2, hc2]; exact hcw) i0 j0 (by omega) (by omega) hoff2 q
    rw [hs2, hr2, hc2] at this
    exact this
  have hdisj : (tileTasks c.rows c.cols).Pairwise
      (fun t1 t2 => ∀ q, ¬((t1.1 ≤ q / c.stride ∧
        q / c.stride < t1.1 + min blockSize (c.rows - t1.1) ∧
        t1.2 ≤ q % c.stride ∧ q % c.stride < t1.2 + min blockSize (c.cols - t1.2)) ∧
        (t2.1 ≤ q / c.stride ∧ q / c.stride < t2.1 + min blockSize (c.rows - t2.1) ∧
        t2.2 ≤ q % c.stride ∧ q % c.stride < t2.2 + min blockSize (c.cols - t2.2)))) := by
    have hmemver : ∀ t1 t2 : Nat × Nat, t1 ∈ tileTasks c.rows c.cols →
        t2 ∈ tileTasks c.rows c.cols → t1 ≠ t2 → ∀ q,
        ¬((t1.1 ≤ q / c.stride ∧
          q / c.stride < t1.1 + min blockSize (c.rows - t1.1) ∧
          t1.2 ≤ q % c.stride ∧ q % c.stride < t1.2 + min blockSize (c.cols - t1.2)) ∧
          (t2.1 ≤ q / c.stride ∧ q / c.stride < t2.1 + min blockSize (c.rows - t2.1) ∧
          t2.2 ≤ q % c.stride ∧ q % c.stride < t2.2 + min blockSize (c.cols - t2.2))) := by
      intro t1 t2 ht1 ht2 hne q hqq
      obtain ⟨hreg1, hreg2⟩ := hqq
      have hqrow : q / c.stride < c.rows := by
        obtain ⟨ha1, ha2, ha3, ha4⟩ := hreg1
        omega
      have hqcol : q % c.stride < c.cols := by
        obtain ⟨ha1, ha2, ha3, ha4⟩ := hreg1
        omega
      obtain ⟨t0, ht0, huniq⟩ := tileTasks_cover c.rows c.cols (q / c.stride)
        (q % c.stride) hqrow hqcol
      have he1 : t1 = t0 := huniq t1 ⟨ht1, hreg1⟩
      have he2 : t2 = t0 := huniq t2 ⟨ht2, hreg2⟩
      exact hne (he1.trans he2.symm)
    exact List.Pairwise.imp_of_mem
      (fun ht1 ht2 hne => hmemver _ _ ht1 ht2 hne) (tileTasks_nodup c.rows c.cols)
  by_cases hcond : p / c.stride < c.rows ∧ p % c.stride < c.cols
  · rw [if_pos hcond]
    obtain ⟨t0, ⟨ht0mem, ht0cov⟩, huniq⟩ := tileTasks_cover c.rows c.cols
      (p / c.stride) (p % c.stride) hcond.1 hcond.2
    exact foldl_disjoint_value (tileTasks c.rows c.cols)
      (processTile tA tB a b alpha K)
      (fun t q => t.1 ≤ q / c.stride ∧
        q / c.stride < t.1 + min blockSize (c.rows - t.1) ∧
        t.2 ≤ q % c.stride ∧ q % c.stride < t.2 + min blockSize (c.cols - t.2))
      (fun t q x => x + alpha * ((List.range K).map
        (fun l => opGet tA a (q / c.stride) l * opGet tB b l (q % c.stride))).sum)
      c _ hInvStep ⟨rfl, rfl, rfl, rfl⟩ hS hdisj t0 ht0mem p ht0cov
  · rw [if_neg hcond]
    refine foldl_disjoint_frame (tileTasks c.rows c.cols)
      (processTile tA tB a b alpha K)
      (fun t q => t.1 ≤ q / c.stride ∧
        q / c.stride < t.1 + min blockSize (c.rows - t.1) ∧
        t.2 ≤ q % c.stride ∧ q % c.stride < t.2 + min blockSize (c.cols - t.2))
      (fun t q x => x + alpha * ((List.range K).map
        (fun l => opGet tA a (q / c.stride) l * opGet tB b l (q % c.stride))).sum)
      c _ hInvStep ⟨rfl, rfl, rfl, rfl⟩ hS p ?hnone
    intro t ht hreg
    obtain ⟨ha1, ha2, ha3, ha4⟩ := hreg
    exact hcond ⟨by omega, by omega⟩

/-!  The parallel entry of the scheduler and the `Dgemm` front door. -/

theorem computeNumBlocks_fst (a b : general ℚ) (tA tB : Transpose) :
    (computeNumBlocks a b tA.isTrans tB.isTrans).1 = opCols tA a := by
  cases tA <;> cases tB <;> rfl

theorem foldl_rows_invariant {α : Type} (ts : List α) (T : general ℚ → α → general ℚ)
    (h : ∀ g t, (T g t).rows = g.rows) (c : general ℚ) :
    (ts.foldl T c).rows = c.rows := by
  induction ts generalizing c with
  | nil => rfl
  | cons t ts ih => rw [List.foldl_cons, ih, h]

theorem foldl_cols_invariant {α : Type} (ts : List α) (T : general ℚ → α → general ℚ)
    (h : ∀ g t, (T g t).cols = g.cols) (c : general ℚ) :
    (ts.foldl T c).cols = c.cols := by
  induction ts generalizing c with
  | nil => rfl
  | cons t ts ih => rw [List.foldl_cons, ih, h]

theorem iteAddRow_rows (cond : Prop) [Decidable cond] (c2 : general ℚ) (i w : Nat)
    (f : Nat → ℚ) : (if cond then addRow c2 i w f else c2).rows = c2.rows := by
  split
  · rw [addRow_rows]
  · rfl

theorem iteAddRow_cols (cond : Prop) [Decidable cond] (c2 : general ℚ) (i w : Nat)
    (f : Nat → ℚ) : (if cond then addRow c2 i w f else c2).cols = c2.cols := by
  split
  · rw [addRow_cols]
  · rfl

theorem dgemmSerial_rows (tA tB : Transpose) (a b c : general ℚ) (alpha : ℚ) :
    (dgemmSerial tA tB a b c alpha).rows = c.rows := by
  cases tA with
  | ConjTrans => cases tB <;> rfl
  | NoTrans =>
      cases tB with
      | ConjTrans => rfl
      | NoTrans =>
          refine foldl_rows_invariant _ _ ?_ c
          intro g i
          exact foldl_rows_invariant _ _ (fun g2 l => iteAddRow_rows _ g2 _ _ _) g
      | Trans =>
          refine foldl_rows_invariant _ _ ?_ c
          intro g i
          exact addRow_rows g i _ _
  | Trans =>
      cases tB with
      | ConjTrans => rfl
      | NoTrans =>
          refine foldl_rows_invariant _ _ ?_ c
          intro g l
          exact foldl_rows_invariant _ _ (fun g2 i => iteAddRow_rows _ g2 _ _ _) g
      | Trans =>
          refine foldl_rows_invariant _ _ ?_ c
          intro g l
          exact foldl_rows_invariant _ _ (fun g2 i => iteAddRow_rows _ g2 _ _ _) g

theorem dgemmSerial_cols (tA tB : Transpose) (a b c : general ℚ) (alpha : ℚ) :
    (dgemmSerial tA tB a b c alpha).cols = c.cols := by
  cases tA with
  | ConjTrans => cases tB <;> rfl
  | NoTrans =>
      cases tB with
      | ConjTrans => rfl
      | NoTrans =>
          refine foldl_cols_invariant _ _ ?_ c
          intro g i
          exact foldl_cols_invariant _ _ (fun g2 l => iteAddRow_cols _ g2 _ _ _) g
      | Trans =>
          refine foldl_cols_invariant _ _ ?_ c
          intro g i
          exact addRow_cols g i _ _
  | Trans =>
      cases tB with
      | ConjTrans => rfl
      | NoTrans =>
          refine foldl_cols_invariant _ _ ?_ c
          intro g l
          exact foldl_cols_invariant _ _ (fun g2 i => iteAddRow_cols _ g2 _ _ _) g
      | Trans =>
          refine foldl_cols_invariant _ _ ?_ c
          intro g l
          exact foldl_cols_invariant _ _ (fun g2 i => iteAddRow_cols _ g2 _ _ _) g

theorem dgemmTiled_stride (tA tB : Transpose) (a b c : general ℚ) (alpha : ℚ) (K : Nat) :
    (dgemmTiled tA tB a b c alpha K).stride = c.stride :=
  foldl_stride_invariant _ _ (fun g t => processTile_stride tA tB a b alpha K g t) c

theorem dgemmTiled_rows (tA tB : Transpose) (a b c : general ℚ) (alpha : ℚ) (K : Nat) :
    (dgemmTiled tA tB a b c alpha K).rows = c.rows :=
  foldl_rows_invariant _ _ (fun g t => processTile_rows tA tB a b alpha K g t) c

theorem dgemmTiled_cols (tA tB : Transpose) (a b c : general ℚ) (alpha : ℚ) (K : Nat) :
    (dgemmTiled tA tB a b c alpha K).cols = c.cols :=
  foldl_cols_invariant _ _ (fun g t => processTile_cols tA tB a b alpha K g t) c

theorem dgemmTiled_length (tA tB : Transpose) (a b c : general ℚ) (alpha : ℚ) (K : Nat) :
    (dgemmTiled tA tB a b c alpha K).data.length = c.data.length :=
  foldl_length_invariant _ _ (fun g t => processTile_length tA tB a b alpha K g t) c

/-- Both branches of `dgemmParallel` (threshold fallback to serial, or the
tiled worker pool) compute the same pointwise result. -/
theorem dgemmParallel_getElem? (tA tB : Transpose) (a b c : general ℚ) (alpha : ℚ)
    (hA : tA ≠ Transpose.ConjTrans) (hB : tB ≠ Transpose.ConjTrans)
    (hM : opRows tA a = c.rows) (hN : opCols tB b = c.cols)
    (hK : opRows tB b = opCols tA a)
    (hcw : c.cols ≤ c.stride)
    (hclen : c.rows = 0 ∨ c.cols = 0 ∨ (c.rows - 1) * c.stride + c.cols ≤ c.data.length)
    (p : Nat) :
    (dgemmParallel tA tB a b c alpha).data[p]? =
      if p / c.stride < c.rows ∧ p % c.stride < c.cols then
        (c.data[p]?).map (fun x => x + alpha * ((List.range (opCols tA a)).map
          (fun l => opGet tA a (p / c.stride) l * opGet tB b l (p % c.stride))).sum)
      else c.data[p]? := by
  show (if (computeNumBlocks a b tA.isTrans tB.isTrans).2 < minParBlock
      then dgemmSerial tA tB a b c alpha
      else dgemmTiled tA tB a b c alpha
        (computeNumBlocks a b tA.isTrans tB.isTrans).1).data[p]? = _
  split
  · rw [dgemmSerial_getElem? tA tB a b c alpha hA hB (hN ▸ hcw) hK p, hM, hN]
  · rw [computeNumBlocks_fst a b tA tB]
    exact dgemmTiled_getElem? tA tB a b c alpha (opCols tA a) hA hB hcw hclen p

theorem dgemmParallel_stride (tA tB : Transpose) (a b c : general ℚ) (alpha : ℚ) :
    (dgemmParallel tA tB a b c alpha).stride = c.stride := by
  show (if (computeNumBlocks a b tA.isTrans tB.isTrans).2 < minParBlock
      then dgemmSerial tA tB a b c alpha
      else dgemmTiled tA tB a b c alpha
        (computeNumBlocks a b tA.isTrans tB.isTrans).1).stride = _
  split
  · exact dgemmSerial_stride tA tB a b c alpha
  · exact dgemmTiled_stride tA tB a b c alpha _

theorem dgemmParallel_rows (tA tB : Transpose) (a b c : general ℚ) (alpha : ℚ) :
    (dgemmParallel tA tB a b c alpha).rows = c.rows := by
  show (if (computeNumBlocks a b tA.isTrans tB.isTrans).2 < minParBlock
      then dgemmSerial tA tB a b c alpha
      else dgemmTiled tA tB a b c alpha
        (computeNumBlocks a b tA.isTrans tB.isTrans).1).rows = _
  split
  · exact dgemmSerial_rows tA tB a b c alpha
  · exact dgemmTiled_rows tA tB a b c alpha _

theorem dgemmParallel_cols (tA tB : Transpose) (a b c : general ℚ) (alpha : ℚ) :
    (dgemmParallel tA tB a b c alpha).cols = c.cols := by
  show (if (computeNumBlocks a b tA.isTrans tB.isTrans).2 < minParBlock
      then dgemmSerial tA tB a b c alpha
      else dgemmTiled tA tB a b c alpha
        (computeNumBlocks a b tA.isTrans tB.isTrans).1).cols = _
  split
  · exact dgemmSerial_cols tA tB a b c alpha
  · exact dgemmTiled_cols tA tB a b c alpha _

theorem dgemmParallel_length (tA tB : Transpose) (a b c : general ℚ) (alpha : ℚ) :
    (dgemmParallel tA tB a b c alpha).data.length = c.data.length := by
  show (if (computeNumBlocks a b tA.isTrans tB.isTrans).2 < minParBlock
      then dgemmSerial tA tB a b c alpha
      else dgemmTiled tA tB a b c alpha
        (computeNumBlocks a b tA.isTrans tB.isTrans).1).data.length = _
  split
  · exact dgemmSerial_length tA tB a b c alpha
  · exact dgemmTiled_length tA tB a b c alpha _

theorem scaleRows_stride (m : Nat) (beta : ℚ) (cm : general ℚ) :
    (scaleRows m beta cm).stride = cm.stride := by
  unfold scaleRows
  refine foldl_stride_invariant _ _ ?_ cm
  intro g i
  exact foldl_stride_invariant (List.range cm.cols)
    (fun cm2 j => cm2.set i j (cm2.get i j * beta)) (fun g2 j => rfl) g

theorem scaleRows_rows (m : Nat) (beta : ℚ) (cm : general ℚ) :
    (scaleRows m beta cm).rows = cm.rows := by
  unfold scaleRows
  refine foldl_rows_invariant _ _ ?_ cm
  intro g i
  exact foldl_rows_invariant (List.range cm.cols)
    (fun cm2 j => cm2.set i j (cm2.get i j * beta)) (fun g2 j => rfl) g

theorem scaleRows_cols (m : Nat) (beta : ℚ) (cm : general ℚ) :
    (scaleRows m beta cm).cols = cm.cols := by
  unfold scaleRows
  refine foldl_cols_invariant _ _ ?_ cm
  intro g i
  exact foldl_cols_invariant (List.range cm.cols)
    (fun cm2 j => cm2.set i j (cm2.get i j * beta)) (fun g2 j => rfl) g

theorem scaleRows_length (m : Nat) (beta : ℚ) (cm : general ℚ) :
    (scaleRows m beta cm).data.length = cm.data.length := by
  unfold scaleRows
  refine foldl_length_invariant _ _ ?_ cm
  intro g i
  refine foldl_length_invariant (List.range cm.cols)
    (fun cm2 j => cm2.set i j (cm2.get i j * beta)) ?_ g
  intro g2 j
  simp [general.set_data]

/-- Arithmetic reading of the modelled view check. -/
theorem check_none_iff (g : general ℚ) :
    g.check = none ↔ g.cols ≤ g.stride ∧
      (g.rows = 0 ∨ g.cols = 0 ∨ (g.rows - 1) * g.stride + g.cols ≤ g.data.length) := by
  unfold general.check
  split
  · constructor
    · intro h
      cases h
    · intro h
      omega
  · split
    · constructor
      · intro h
        cases h
      · intro h
        omega
    · constructor
      · intro h
        constructor
        · omega
        · omega
      · intro h
        rfl

theorem opRows_amat (tA : Transpose) (hA : tA ≠ Transpose.ConjTrans)
    (a : List ℚ) (k m lda : Nat) :
    opRows tA (if tA.isTrans then (⟨a, k, m, lda⟩ : general ℚ) else ⟨a, m, k, lda⟩) = m := by
  cases tA with
  | ConjTrans => exact absurd rfl hA
  | NoTrans => rfl
  | Trans => rfl

theorem opCols_amat (tA : Transpose) (hA : tA ≠ Transpose.ConjTrans)
    (a : List ℚ) (k m lda : Nat) :
    opCols tA (if tA.isTrans then (⟨a, k, m, lda⟩ : general ℚ) else ⟨a, m, k, lda⟩) = k := by
  cases tA with
  | ConjTrans => exact absurd rfl hA
  | NoTrans => rfl
  | Trans => rfl

theorem opRows_bmat (tB : Transpose) (hB : tB ≠ Transpose.ConjTrans)
    (b : List ℚ) (n k ldb : Nat) :
    opRows tB (if tB.isTrans then (⟨b, n, k, ldb⟩ : general ℚ) else ⟨b, k, n, ldb⟩) = k := by
  cases tB with
  | ConjTrans => exact absurd rfl hB
  | NoTrans => rfl
  | Trans => rfl

theorem opCols_bmat (tB : Transpose) (hB : tB ≠ Transpose.ConjTrans)
    (b : List ℚ) (n k ldb : Nat) :
    opCols tB (if tB.isTrans then (⟨b, n, k, ldb⟩ : general ℚ) else ⟨b, k, n, ldb⟩) = n := by
  cases tB with
  | ConjTrans => exact absurd rfl hB
  | NoTrans => rfl
  | Trans => rfl

/-- Master specification of the entry point on valid calls: no panic, the
buffer keeps its length, every logical element of `C` becomes
`c * beta + alpha * (op(A) op(B))`, and every other buffer position
(stride padding and the tail) is untouched. -/
theorem Dgemm_spec (tA tB : Transpose) (m n k : Nat) (alpha : ℚ) (a : List ℚ) (lda : Nat)
    (b : List ℚ) (ldb : Nat) (beta : ℚ) (cl : List ℚ) (ldc : Nat)
    (hval : dgemmValid tA tB m n k a lda b ldb cl ldc) :
    (Dgemm tA tB m n k alpha a lda b ldb beta cl ldc).2 = none ∧
    (Dgemm tA tB m n k alpha a lda b ldb beta cl ldc).1.length = cl.length ∧
    ∀ p : Nat,
      (Dgemm tA tB m n k alpha a lda b ldb beta cl ldc).1[p]? =
        if p / ldc < m ∧ p % ldc < n then
          (cl[p]?).map (fun x => x * beta + alpha * ((List.range k).map
            (fun l => opGet tA (if tA.isTrans then (⟨a, k, m, lda⟩ : general ℚ)
                else ⟨a, m, k, lda⟩) (p / ldc) l *
              opGet tB (if tB.isTrans then (⟨b, n, k, ldb⟩ : general ℚ)
                else ⟨b, k, n, ldb⟩) l (p % ldc))).sum)
        else cl[p]? := by
  obtain ⟨hca, hcb, hcc, hfa, hfb⟩ := hval
  have hA : tA ≠ Transpose.ConjTrans := by rcases hfa with h | h <;> simp [h]
  have hB : tB ≠ Transpose.ConjTrans := by rcases hfb with h | h <;> simp [h]
  have hnfa : ¬(tA ≠ Transpose.Trans ∧ tA ≠ Transpose.NoTrans) := by
    rcases hfa with h | h <;> simp [h]
  have hnfb : ¬(tB ≠ Transpose.Trans ∧ tB ≠ Transpose.NoTrans) := by
    rcases hfb with h | h <;> simp [h]
  have hD : Dgemm tA tB m n k alpha a lda b ldb beta cl ldc =
      ((dgemmParallel tA tB
        (if tA.isTrans then ⟨a, k, m, lda⟩ else ⟨a, m, k, lda⟩)
        (if tB.isTrans then ⟨b, n, k, ldb⟩ else ⟨b, k, n, ldb⟩)
        (if beta ≠ 1 then scaleRows m beta ⟨cl, m, n, ldc⟩ else ⟨cl, m, n, ldc⟩)
        alpha).data, none) := by
    simp only [Dgemm]
    rw [hca, hcb, hcc, if_neg hnfa, if_neg hnfb]
  have hcheck := (check_none_iff ⟨cl, m, n, ldc⟩).mp hcc
  have hcw : n ≤ ldc := hcheck.1
  have hclen : m = 0 ∨ n = 0 ∨ (m - 1) * ldc + n ≤ cl.length := hcheck.2
  -- fields of the scaled (or unscaled) cmat passed to the scheduler
  have hc2fields : (if beta ≠ 1 then scaleRows m beta ⟨cl, m, n, ldc⟩
        else (⟨cl, m, n, ldc⟩ : general ℚ)).stride = ldc ∧
      (if beta ≠ 1 then scaleRows m beta ⟨cl, m, n, ldc⟩
        else (⟨cl, m, n, ldc⟩ : general ℚ)).rows = m ∧
      (if beta ≠ 1 then scaleRows m beta ⟨cl, m, n, ldc⟩
        else (⟨cl, m, n, ldc⟩ : general ℚ)).cols = n ∧
      (if beta ≠ 1 then scaleRows m beta ⟨cl, m, n, ldc⟩
        else (⟨cl, m, n, ldc⟩ : general ℚ)).data.length = cl.length := by
    split
    · exact ⟨scaleRows_stride m beta _, scaleRows_rows m beta _,
        scaleRows_cols m beta _, scaleRows_length m beta _⟩
    · exact ⟨rfl, rfl, rfl, rfl⟩
  have hc2get : ∀ p : Nat, (if beta ≠ 1 then scaleRows m beta ⟨cl, m, n, ldc⟩
        else (⟨cl, m, n, ldc⟩ : general ℚ)).data[p]? =
      if p / ldc < m ∧ p % ldc < n then (cl[p]?).map (fun x => x * beta) else cl[p]? := by
    intro p
    split
    · exact scaleRows_getElem? m beta ⟨cl, m, n, ldc⟩ hcw p
    · rename_i hb1
      have hb1' : beta = 1 := not_not.mp hb1
      show (cl[p]? = _)
      split
      · cases hcp : cl[p]? with
        | none => rfl
        | some x => simp [hb1']
      · rfl
  have hpar := fun p => dgemmParallel_getElem? tA tB
    (if tA.isTrans then ⟨a, k, m, lda⟩ else ⟨a, m, k, lda⟩)
    (if tB.isTrans then ⟨b, n, k, ldb⟩ else ⟨b, k, n, ldb⟩)
    (if beta ≠ 1 then scaleRows m beta ⟨cl, m, n, ldc⟩ else ⟨cl, m, n, ldc⟩)
    alpha hA hB
    (by rw [opRows_amat tA hA, hc2fields.2.1])
    (by rw [opCols_bmat tB hB, hc2fields.2.2.1])
    (by rw [opRows_bmat tB hB, opCols_amat tA hA])
    (by rw [hc2fields.1, hc2fields.2.2.1]; exact hcw)
    (by rw [hc2fields.1, hc2fields.2.1, hc2fields.2.2.1, hc2fields.2.2.2]; exact hclen)
    p
  refine ⟨?err, ?len, ?point⟩
  case err =>
    rw [hD]
  case len =>
    rw [hD]
    show (dgemmParallel tA tB _ _ _ alpha).data.length = cl.length
    rw [dgemmParallel_length, hc2fields.2.2.2]
  case point =>
    intro p
    have hp := hpar p
    rw [hc2fields.1, hc2fields.2.1, hc2fields.2.2.1, opCols_amat tA hA] at hp
    rw [hD]
    show (dgemmParallel tA tB _ _ _ alpha).data[p]? = _
    rw [hp, hc2get p]
    by_cases hcond : p / ldc < m ∧ p % ldc < n
    · rw [if_pos hcond, if_pos hcond, if_pos hcond]
      cases cl[p]? with
      | none => rfl
      | some x => rfl
    · rw [if_neg hcond, if_neg hcond, if_neg hcond]

/-!  IEEE special-value facts used by the claims about `beta = 0`,
`alpha = 0` and the zero-multiplier skip. -/

theorem FP.zero_def : (0 : FP) = FP.fin 0 := rfl

theorem FP.one_def : (1 : FP) = FP.fin 1 := rfl

theorem FP.zero_mul_finite (x : FP) (hx : x.finite = true) : (0 : FP) * x = 0 := by
  cases x with
  | fin q =>
      show FP.mul (FP.fin 0) (FP.fin q) = FP.fin 0
      simp [FP.mul]
  | nan => cases hx
  | inf => cases hx
  | ninf => cases hx

theorem FP.add_zero_right (x : FP) : x + (0 : FP) = x := by
  cases x with
  | fin q =>
      show FP.fin (q + 0) = FP.fin q
      rw [add_zero]
  | nan => rfl
  | inf => rfl
  | ninf => rfl

theorem FP.mul_finite (x y : FP) (hx : x.finite = true) (hy : y.finite = true) :
    (x * y).finite = true := by
  cases x with
  | fin q => cases y with
    | fin r => rfl
    | nan => cases hy
    | inf => cases hy
    | ninf => cases hy
  | nan => cases hx
  | inf => cases hx
  | ninf => cases hx

theorem FP.add_finite (x y : FP) (hx : x.finite = true) (hy : y.finite = true) :
    (x + y).finite = true := by
  cases x with
  | fin q => cases y with
    | fin r => rfl
    | nan => cases hy
    | inf => cases hy
    | ninf => cases hy
  | nan => cases hx
  | inf => cases hx
  | ninf => cases hx

theorem FP.mul_fin_zero (x : FP) (hx : x.finite = true) : x * (0 : FP) = 0 := by
  cases x with
  | fin q =>
      show FP.mul (FP.fin q) (FP.fin 0) = FP.fin 0
      simp [FP.mul]
  | nan => cases hx
  | inf => cases hx
  | ninf => cases hx

/-- Writing back the value already present is a no-op on the buffer. -/
theorem set_getD_self {α : Type} (l : List α) (p : Nat) (d : α) :
    l.set p (l.getD p d) = l := by
  apply List.ext_getElem?
  intro q
  rw [List.getElem?_set]
  by_cases hpq : p = q
  · subst hpq
    by_cases hlen : p < l.length
    · rw [if_pos rfl, if_pos hlen, List.getD_eq_getElem l d hlen,
        List.getElem?_eq_getElem hlen]
    · rw [if_pos rfl, if_neg hlen]
      exact (List.getElem?_eq_none (by omega)).symm
  · rw [if_neg hpq]

/-- Reads from a buffer whose entries are all finite are finite (the
out-of-range default `0` is finite as well). -/
theorem general.get_finite (g : general FP) (h : ∀ x, x ∈ g.data → x.finite = true)
    (i j : Nat) : (g.get i j).finite = true := by
  unfold general.get
  rw [List.getD_eq_getElem?_getD]
  cases hx : g.data[i * g.stride + j]? with
  | none => rfl
  | some x => exact h x (List.getElem?_mem hx)

/-- An inner write loop whose added values are all exactly zero leaves the
buffer unchanged. -/
theorem addRow_id (c : general FP) (i w : Nat) (f : Nat → FP)
    (hf : ∀ j, f j = (0 : FP)) : addRow c i w f = c := by
  unfold addRow
  refine foldl_id _ _ _ ?_
  intro j hj
  rw [hf j, FP.add_zero_right]
  show c.set i j (c.get i j) = c
  unfold general.set general.get
  rw [set_getD_self]

theorem fold_add_finite (L : List Nat) (g : Nat → FP) (hg : ∀ l, (g l).finite = true) :
    ∀ t0 : FP, t0.finite = true → (L.foldl (fun t l => t + g l) t0).finite = true := by
  induction L with
  | nil => intro t0 h0; exact h0
  | cons l L ih =>
      intro t0 h0
      exact ih (t0 + g l) (FP.add_finite t0 (g l) h0 (hg l))

theorem dgemmSerialNotNot_alpha_zero (a b c : general FP)
    (ha : ∀ x, x ∈ a.data → x.finite = true) :
    dgemmSerialNotNot a b c 0 = c := by
  unfold dgemmSerialNotNot
  refine foldl_id _ _ _ ?_
  intro i hi
  refine foldl_id _ _ _ ?_
  intro l hl
  have htmp : (0 : FP) * a.get i l = 0 := FP.zero_mul_finite _ (a.get_finite ha i l)
  show (if (0 : FP) * a.get i l ≠ 0 then
      addRow c i b.cols (fun j => ((0 : FP) * a.get i l) * b.get l j) else c) = c
  rw [if_neg (fun hne => hne htmp)]

theorem dgemmSerialTransNot_alpha_zero (a b c : general FP)
    (ha : ∀ x, x ∈ a.data → x.finite = true) :
    dgemmSerialTransNot a b c 0 = c := by
  unfold dgemmSerialTransNot
  refine foldl_id _ _ _ ?_
  intro l hl
  refine foldl_id _ _ _ ?_
  intro i hi
  have htmp : (0 : FP) * a.get l i = 0 := FP.zero_mul_finite _ (a.get_finite ha l i)
  show (if (0 : FP) * a.get l i ≠ 0 then
      addRow c i b.cols (fun j => ((0 : FP) * a.get l i) * b.get l j) else c) = c
  rw [if_neg (fun hne => hne htmp)]

theorem dgemmSerialNotTrans_alpha_zero (a b c : general FP)
    (ha : ∀ x, x ∈ a.data → x.finite = true) (hb : ∀ x, x ∈ b.data → x.finite = true) :
    dgemmSerialNotTrans a b c 0 = c := by
  unfold dgemmSerialNotTrans
  refine foldl_id _ _ _ ?_
  intro i hi
  refine addRow_id c i b.rows _ ?_
  intro j
  have hfin : ((List.range b.cols).foldl
      (fun t l => t + a.get i l * b.get j l) 0).finite = true := by
    refine fold_add_finite _ _ ?_ 0 rfl
    intro l
    exact FP.mul_finite _ _ (a.get_finite ha i l) (b.get_finite hb j l)
  exact FP.zero_mul_finite _ hfin

theorem dgemmSerialTransTrans_alpha_zero (a b c : general FP)
    (ha : ∀ x, x ∈ a.data → x.finite = true) (hb : ∀ x, x ∈ b.data → x.finite = true) :
    dgemmSerialTransTrans a b c 0 = c := by
  unfold dgemmSerialTransTrans
  refine foldl_id _ _ _ ?_
  intro l hl
  refine foldl_id _ _ _ ?_
  intro i hi
  show (if a.get l i ≠ 0 then
      addRow c i b.rows (fun j => ((0 : FP) * a.get l i) * b.get j l) else c) = c
  by_cases hv : a.get l i ≠ 0
  · rw [if_pos hv]
    refine addRow_id c i b.rows _ ?_
    intro j
    rw [FP.zero_mul_finite _ (a.get_finite ha l i)]
    exact FP.zero_mul_finite _ (b.get_finite hb j l)
  · rw [if_neg hv]

theorem dgemmSerial_alpha_zero (tA tB : Transpose) (a b c : general FP)
    (ha : ∀ x, x ∈ a.data → x.finite = true) (hb : ∀ x, x ∈ b.data → x.finite = true) :
    dgemmSerial tA tB a b c 0 = c := by
  cases tA with
  | ConjTrans => cases tB <;> rfl
  | NoTrans =>
      cases tB with
      | ConjTrans => rfl
      | NoTrans => exact dgemmSerialNotNot_alpha_zero a b c ha
      | Trans => exact dgemmSerialNotTrans_alpha_zero a b c ha hb
  | Trans =>
      cases tB with
      | ConjTrans => rfl
      | NoTrans => exact dgemmSerialTransNot_alpha_zero a b c ha
      | Trans => exact dgemmSerialTransTrans_alpha_zero a b c ha hb

theorem view_entries_subset (g : general FP) (r c0 nr nc : Nat)
    (h : ∀ x, x ∈ g.data → x.finite = true) :
    ∀ x, x ∈ (g.view r c0 nr nc).data → x.finite = true := by
  intro x hx
  exact h x (List.mem_of_mem_drop hx)

theorem processTile_alpha_zero (tA tB : Transpose) (a b : general FP) (K : Nat)
    (c : general FP) (t : Nat × Nat)
    (ha : ∀ x, x ∈ a.data → x.finite = true) (hb : ∀ x, x ∈ b.data → x.finite = true) :
    processTile tA tB a b 0 K c t = c := by
  obtain ⟨i0, j0⟩ := t
  have hchunk : (blockStarts K).foldl (fun cs k =>
      let lenk := min blockSize (K - k)
      let aSub := if tA.isTrans then a.view k i0 lenk (min blockSize (c.rows - i0))
        else a.view i0 k (min blockSize (c.rows - i0)) lenk
      let bSub := if tB.isTrans then b.view j0 k (min blockSize (c.cols - j0)) lenk
        else b.view k j0 lenk (min blockSize (c.cols - j0))
      dgemmSerial tA tB aSub bSub cs 0)
      (c.view i0 j0 (min blockSize (c.rows - i0)) (min blockSize (c.cols - j0))) =
      c.view i0 j0 (min blockSize (c.rows - i0)) (min blockSize (c.cols - j0)) := by
    refine foldl_id _ _ _ ?_
    intro k hk
    refine dgemmSerial_alpha_zero tA tB _ _ _ ?_ ?_
    · split
      · exact view_entries_subset a _ _ _ _ ha
      · exact view_entries_subset a _ _ _ _ ha
    · split
      · exact view_entries_subset b _ _ _ _ hb
      · exact view_entries_subset b _ _ _ _ hb
  show { c with data := c.data.take (i0 * c.stride + j0) ++
    ((blockStarts K).foldl (fun cs k =>
      let lenk := min blockSize (K - k)
      let aSub := if tA.isTrans then a.view k i0 lenk (min blockSize (c.rows - i0))
        else a.view i0 k (min blockSize (c.rows - i0)) lenk
      let bSub := if tB.isTrans then b.view j0 k (min blockSize (c.cols - j0)) lenk
        else b.view k j0 lenk (min blockSize (c.cols - j0))
      dgemmSerial tA tB aSub bSub cs 0)
      (c.view i0 j0 (min blockSize (c.rows - i0))
        (min blockSize (c.cols - j0)))).data } = c
  rw [hchunk]
  show { c with data := (c.data.take (i0 * c.stride + j0) ++
    c.data.drop (i0 * c.stride + j0)) } = c
  rw [List.take_append_drop]

theorem dgemmParallel_alpha_zero (tA tB : Transpose) (a b c : general FP)
    (ha : ∀ x, x ∈ a.data → x.finite = true) (hb : ∀ x, x ∈ b.data → x.finite = true) :
    dgemmParallel tA tB a b c 0 = c := by
  show (if (computeNumBlocks a b tA.isTrans tB.isTrans).2 < minParBlock
      then dgemmSerial tA tB a b c 0
      else dgemmTiled tA tB a b c 0 (computeNumBlocks a b tA.isTrans tB.isTrans).1) = c
  split
  · exact dgemmSerial_alpha_zero tA tB a b c ha hb
  · unfold dgemmTiled
    refine foldl_id _ _ _ ?_
    intro t ht
    exact processTile_alpha_zero tA tB a b _ c t ha hb

theorem notNot_skip_eq (a b c : general FP) (alpha : FP)
    (hb : ∀ x, x ∈ b.data → x.finite = true) :
    dgemmSerialNotNot a b c alpha = dgemmSerialNotNotNoSkip a b c alpha := by
  unfold dgemmSerialNotNot dgemmSerialNotNotNoSkip
  refine foldl_congr_fun _ _ _ _ ?_
  intro c1 i
  refine foldl_congr_fun _ _ _ _ ?_
  intro c2 l
  show (if alpha * a.get i l ≠ 0 then
      addRow c2 i b.cols (fun j => (alpha * a.get i l) * b.get l j) else c2) =
    addRow c2 i b.cols (fun j => (alpha * a.get i l) * b.get l j)
  by_cases htmp : alpha * a.get i l ≠ 0
  · rw [if_pos htmp]
  · rw [if_neg htmp]
    have h0 : alpha * a.get i l = 0 := not_not.mp htmp
    refine (addRow_id c2 i b.cols _ ?_).symm
    intro j
    rw [h0]
    exact FP.zero_mul_finite _ (b.get_finite hb l j)

theorem transNot_skip_eq (a b c : general FP) (alpha : FP)
    (hb : ∀ x, x ∈ b.data → x.finite = true) :
    dgemmSerialTransNot a b c alpha = dgemmSerialTransNotNoSkip a b c alpha := by
  unfold dgemmSerialTransNot dgemmSerialTransNotNoSkip
  refine foldl_congr_fun _ _ _ _ ?_
  intro c1 l
  refine foldl_congr_fun _ _ _ _ ?_
  intro c2 i
  show (if alpha * a.get l i ≠ 0 then
      addRow c2 i b.cols (fun j => (alpha * a.get l i) * b.get l j) else c2) =
    addRow c2 i b.cols (fun j => (alpha * a.get l i) * b.get l j)
  by_cases htmp : alpha * a.get l i ≠ 0
  · rw [if_pos htmp]
  · rw [if_neg htmp]
    have h0 : alpha * a.get l i = 0 := not_not.mp htmp
    refine (addRow_id c2 i b.cols _ ?_).symm
    intro j
    rw [h0]
    exact FP.zero_mul_finite _ (b.get_finite hb l j)

theorem transTrans_skip_eq (a b c : general FP) (alpha : FP)
    (hb : ∀ x, x ∈ b.data → x.finite = true) (halpha : alpha.finite = true) :
    dgemmSerialTransTrans a b c alpha = dgemmSerialTransTransNoSkip a b c alpha := by
  unfold dgemmSerialTransTrans dgemmSerialTransTransNoSkip
  refine foldl_congr_fun _ _ _ _ ?_
  intro c1 l
  refine foldl_congr_fun _ _ _ _ ?_
  intro c2 i
  show (if a.get l i ≠ 0 then
      addRow c2 i b.rows (fun j => (alpha * a.get l i) * b.get j l) else c2) =
    addRow c2 i b.rows (fun j => (alpha * a.get l i) * b.get j l)
  by_cases hv : a.get l i ≠ 0
  · rw [if_pos hv]
  · rw [if_neg hv]
    have h0 : a.get l i = 0 := not_not.mp hv
    refine (addRow_id c2 i b.rows _ ?_).symm
    intro j
    rw [h0, FP.mul_fin_zero alpha halpha]
    exact FP.zero_mul_finite _ (b.get_finite hb j l)

/-- Two views with equal fields are equal. -/
theorem general.ext_fields {x y : general ℚ} (hd : x.data = y.data)
    (hr : x.rows = y.rows) (hc : x.cols = y.cols) (hs : x.stride = y.stride) :
    x = y := by
  cases x
  cases y
  simp only at hd hr hc hs
  subst hd
  subst hr
  subst hc
  subst hs
  rfl

theorem naiveDgemm_stride (tA tB : Transpose) (a b c : general ℚ) (alpha : ℚ) (K : Nat) :
    (naiveDgemm tA tB a b c alpha K).stride = c.stride := by
  unfold naiveDgemm
  refine foldl_stride_invariant _ _ ?_ c
  intro g i
  exact foldl_stride_invariant (List.range c.cols)
    (fun c2 j => c2.set i j (c2.get i j +
      alpha * (List.map (fun l => opGet tA a i l * opGet tB b l j) (List.range K)).sum))
    (fun g2 j => rfl) g

theorem naiveDgemm_rows (tA tB : Transpose) (a b c : general ℚ) (alpha : ℚ) (K : Nat) :
    (naiveDgemm tA tB a b c alpha K).rows = c.rows := by
  unfold naiveDgemm
  refine foldl_rows_invariant _ _ ?_ c
  intro g i
  exact foldl_rows_invariant (List.range c.cols)
    (fun c2 j => c2.set i j (c2.get i j +
      alpha * (List.map (fun l => opGet tA a i l * opGet tB b l j) (List.range K)).sum))
    (fun g2 j => rfl) g

theorem naiveDgemm_cols (tA tB : Transpose) (a b c : general ℚ) (alpha : ℚ) (K : Nat) :
    (naiveDgemm tA tB a b c alpha K).cols = c.cols := by
  unfold naiveDgemm
  refine foldl_cols_invariant _ _ ?_ c
  intro g i
  exact foldl_cols_invariant (List.range c.cols)
    (fun c2 j => c2.set i j (c2.get i j +
      alpha * (List.map (fun l => opGet tA a i l * opGet tB b l j) (List.range K)).sum))
    (fun g2 j => rfl) g

/-!  Remaining helper lemmas for the claim theorems. -/

/-- Ceiling-of-division form of the per-dimension block count computed by
the planner (`x / blockSize`, plus one when the division is inexact). -/
theorem ceilBlocks_eq (x : Nat) :
    x / blockSize + (if x % blockSize ≠ 0 then 1 else 0) =
      (x + blockSize - 1) / blockSize := by
  show x / 64 + (if x % 64 ≠ 0 then 1 else 0) = (x + 64 - 1) / 64
  split
  · omega
  · omega

/-- The entry point returns no panic value exactly on valid calls. -/
theorem Dgemm_snd_none_iff (tA tB : Transpose) (m n k : Nat) (alpha : ℚ) (a : List ℚ)
    (lda : Nat) (b : List ℚ) (ldb : Nat) (beta : ℚ) (cl : List ℚ) (ldc : Nat) :
    (Dgemm tA tB m n k alpha a lda b ldb beta cl ldc).2 = none ↔
      dgemmValid tA tB m n k a lda b ldb cl ldc := by
  unfold dgemmValid
  simp only [Dgemm]
  split
  · rename_i e heq
    constructor
    · intro h
      exact Option.noConfusion h
    · rintro ⟨h1, _⟩
      rw [heq] at h1
      exact Option.noConfusion h1
  · rename_i heq
    split
    · rename_i e2 heq2
      constructor
      · intro h
        exact Option.noConfusion h
      · rintro ⟨_, h2, _⟩
        rw [heq2] at h2
        exact Option.noConfusion h2
    · rename_i heq2
      split
      · rename_i e3 heq3
        constructor
        · intro h
          exact Option.noConfusion h
        · rintro ⟨_, _, h3, _⟩
          rw [heq3] at h3
          exact Option.noConfusion h3
      · rename_i heq3
        split
        · rename_i hflag
          constructor
          · intro h
            exact Option.noConfusion h
          · rintro ⟨_, _, _, hA2, _⟩
            rcases hA2 with h | h
            · exact absurd h hflag.1
            · exact absurd h hflag.2
        · rename_i hflagA
          split
          · rename_i hflag
            constructor
            · intro h
              exact Option.noConfusion h
            · rintro ⟨_, _, _, _, hB2⟩
              rcases hB2 with h | h
              · exact absurd h hflag.1
              · exact absurd h hflag.2
          · rename_i hflagB
            constructor
            · intro _
              refine ⟨heq, heq2, heq3, ?_, ?_⟩
              · by_cases h : tA = Transpose.Trans
                · exact Or.inl h
                · by_cases h2 : tA = Transpose.NoTrans
                  · exact Or.inr h2
                  · exact absurd ⟨h, h2⟩ hflagA
              · by_cases h : tB = Transpose.Trans
                · exact Or.inl h
                · by_cases h2 : tB = Transpose.NoTrans
                  · exact Or.inr h2
                  · exact absurd ⟨h, h2⟩ hflagB
            · intro _
              rfl

/-- On a panicking call the returned `c` buffer is exactly the input buffer. -/
theorem Dgemm_error_id (tA tB : Transpose) (m n k : Nat) (alpha : ℚ) (a : List ℚ)
    (lda : Nat) (b : List ℚ) (ldb : Nat) (beta : ℚ) (cl : List ℚ) (ldc : Nat) :
    (Dgemm tA tB m n k alpha a lda b ldb beta cl ldc).2 ≠ none →
    (Dgemm tA tB m n k alpha a lda b ldb beta cl ldc).1 = cl := by
  simp only [Dgemm]
  split
  · intro _
    rfl
  · split
    · intro _
      rfl
    · split
      · intro _
        rfl
      · split
        · intro _
          rfl
        · split
          · intro _
            rfl
          · intro h
            exact absurd rfl h

/-- The operand view of `a` holds the buffer `a` whichever way the flag goes. -/
theorem amat_data (tA : Transpose) (a : List FP) (m k lda : Nat) :
    (if tA.isTrans then (⟨a, k, m, lda⟩ : general FP) else ⟨a, m, k, lda⟩).data = a := by
  split
  · rfl
  · rfl

/-- The operand view of `b` holds the buffer `b` whichever way the flag goes. -/
theorem bmat_data (tB : Transpose) (b : List FP) (n k ldb : Nat) :
    (if tB.isTrans then (⟨b, n, k, ldb⟩ : general FP) else ⟨b, k, n, ldb⟩).data = b := by
  split
  · rfl
  · rfl

/-!  The claim theorems. -/

/-- C1, counterexample: with `beta = 0` the scaling pass computes
`ctmp[j] *= beta`, a multiplication rather than an overwrite, so a NaN
already stored in `C` survives (`NaN * 0 = NaN`) and poisons the result:
the output depends on `C`'s prior contents.  The same call with prior
content `0` instead yields `1`. -/
theorem C1_counterexample :
    (Dgemm Transpose.NoTrans Transpose.NoTrans 1 1 1 (FP.fin 1) [FP.fin 1] 1 [FP.fin 1] 1
      (FP.fin 0) [FP.nan] 1).1 = [FP.nan] ∧
    (Dgemm Transpose.NoTrans Transpose.NoTrans 1 1 1 (FP.fin 1) [FP.fin 1] 1 [FP.fin 1] 1
      (FP.fin 0) [FP.fin 0] 1).1 = [FP.fin 1] := by
  decide

/-- C1 (corrected): on a valid call with `beta = 0`, every element of the
logical `m × n` region of `C` is multiplied by `0` and the product
`alpha * op(A) op(B)` is added on; in exact arithmetic the written value
`alpha * sum` does not depend on the prior element value (the mapped
function ignores it), i.e. the independence claimed by the spec holds for
finite prior contents, but the pass is a multiply, not an overwrite, so
NaN/Inf priors are not cleared (see the counterexample). -/
theorem C1_beta_zero (tA tB : Transpose) (m n k : Nat) (alpha : ℚ) (a : List ℚ)
    (lda : Nat) (b : List ℚ) (ldb : Nat) (cl : List ℚ) (ldc : Nat)
    (hval : dgemmValid tA tB m n k a lda b ldb cl ldc) :
    ∀ p : Nat, (Dgemm tA tB m n k alpha a lda b ldb 0 cl ldc).1[p]? =
      if p / ldc < m ∧ p % ldc < n then
        (cl[p]?).map (fun _ => alpha * ((List.range k).map (fun l =>
          opGet tA (if tA.isTrans then (⟨a, k, m, lda⟩ : general ℚ)
              else ⟨a, m, k, lda⟩) (p / ldc) l *
          opGet tB (if tB.isTrans then (⟨b, n, k, ldb⟩ : general ℚ)
              else ⟨b, k, n, ldb⟩) l (p % ldc))).sum)
      else cl[p]? := by
  intro p
  rw [(Dgemm_spec tA tB m n k alpha a lda b ldb 0 cl ldc hval).2.2 p]
  by_cases hc : p / ldc < m ∧ p % ldc < n
  · rw [if_pos hc, if_pos hc]
    congr 1
    funext x
    ring
  · rw [if_neg hc, if_neg hc]

/-- C1, witness of the corrected statement at a concrete valid call. -/
theorem C1_beta_zero_witness :
    (Dgemm Transpose.NoTrans Transpose.NoTrans 1 1 1 (2 : ℚ) [1] 1 [1] 1 0 [5] 1).1[0]? =
      (if 0 / 1 < 1 ∧ 0 % 1 < 1 then
        (([(5 : ℚ)])[0]?).map (fun _ => 2 * ((List.range 1).map (fun l =>
          opGet Transpose.NoTrans (if Transpose.NoTrans.isTrans then
              (⟨[1], 1, 1, 1⟩ : general ℚ) else ⟨[1], 1, 1, 1⟩) (0 / 1) l *
          opGet Transpose.NoTrans (if Transpose.NoTrans.isTrans then
              (⟨[1], 1, 1, 1⟩ : general ℚ) else ⟨[1], 1, 1, 1⟩) l (0 % 1))).sum)
      else ([(5 : ℚ)])[0]?) :=
  C1_beta_zero Transpose.NoTrans Transpose.NoTrans 1 1 1 2 [1] 1 [1] 1 [5] 1
    (by unfold dgemmValid; decide) 0

/-- C2 (confirmed): the concrete scenario of the spec: `A = [[1,2,3],[4,5,6]]`,
`B = [[7,8],[9,10],[11,12]]`, `alpha = 1`, `beta = 0`, `C` initially zero,
no transposition, yields `C = [[58,64],[139,154]]` and no panic. -/
theorem C2_concrete :
    Dgemm Transpose.NoTrans Transpose.NoTrans 2 2 3 (1 : ℚ) [1, 2, 3, 4, 5, 6] 3
      [7, 8, 9, 10, 11, 12] 2 0 [0, 0, 0, 0] 2 = ([58, 64, 139, 154], none) := by
  obtain ⟨herr, hlen, hp⟩ := Dgemm_spec Transpose.NoTrans Transpose.NoTrans 2 2 3 1
    [1, 2, 3, 4, 5, 6] 3 [7, 8, 9, 10, 11, 12] 2 0 [0, 0, 0, 0] 2
    (by unfold dgemmValid; decide)
  have h1 : (Dgemm Transpose.NoTrans Transpose.NoTrans 2 2 3 (1 : ℚ) [1, 2, 3, 4, 5, 6] 3
      [7, 8, 9, 10, 11, 12] 2 0 [0, 0, 0, 0] 2).1 = [58, 64, 139, 154] := by
    refine List.ext_getElem? ?_
    intro p
    rw [hp p]
    rcases p with _ | _ | _ | _ | p
    · norm_num [opGet, general.get, Transpose.isTrans, List.range_succ]
    · norm_num [opGet, general.get, Transpose.isTrans, List.range_succ]
    · norm_num [opGet, general.get, Transpose.isTrans, List.range_succ]
    · norm_num [opGet, general.get, Transpose.isTrans, List.range_succ]
    · rw [if_neg (by omega)]
      rw [List.getElem?_eq_none (by simp), List.getElem?_eq_none (by simp)]
  have hfull : Dgemm Transpose.NoTrans Transpose.NoTrans 2 2 3 (1 : ℚ) [1, 2, 3, 4, 5, 6] 3
      [7, 8, 9, 10, 11, 12] 2 0 [0, 0, 0, 0] 2 =
      ((Dgemm Transpose.NoTrans Transpose.NoTrans 2 2 3 (1 : ℚ) [1, 2, 3, 4, 5, 6] 3
        [7, 8, 9, 10, 11, 12] 2 0 [0, 0, 0, 0] 2).1,
       (Dgemm Transpose.NoTrans Transpose.NoTrans 2 2 3 (1 : ℚ) [1, 2, 3, 4, 5, 6] 3
        [7, 8, 9, 10, 11, 12] 2 0 [0, 0, 0, 0] 2).2) := rfl
  rw [hfull, h1, herr]

/-- C3 (confirmed): the parallel tiled/blocked path computes exactly the
serial path on every consistent input, for every flag pair; in the exact
arithmetic of the model the two are equal, hence in particular within any
accumulated-rounding epsilon. -/
theorem C3_parallel_eq_serial (tA tB : Transpose) (a b c : general ℚ) (alpha : ℚ)
    (hA : tA ≠ Transpose.ConjTrans) (hB : tB ≠ Transpose.ConjTrans)
    (hM : opRows tA a = c.rows) (hN : opCols tB b = c.cols)
    (hK : opRows tB b = opCols tA a)
    (hcw : c.cols ≤ c.stride)
    (hclen : c.rows = 0 ∨ c.cols = 0 ∨ (c.rows - 1) * c.stride + c.cols ≤ c.data.length) :
    dgemmParallel tA tB a b c alpha = dgemmSerial tA tB a b c alpha := by
  have hw : opCols tB b ≤ c.stride := by
    rw [hN]
    exact hcw
  refine general.ext_fields ?d ?r ?c ?s
  case d =>
    refine List.ext_getElem? ?_
    intro p
    rw [dgemmParallel_getElem? tA tB a b c alpha hA hB hM hN hK hcw hclen p,
        dgemmSerial_getElem? tA tB a b c alpha hA hB hw hK p, hM, hN]
  case r =>
    rw [dgemmParallel_rows, dgemmSerial_rows]
  case c =>
    rw [dgemmParallel_cols, dgemmSerial_cols]
  case s =>
    rw [dgemmParallel_stride, dgemmSerial_stride]

/-- C3, witness at a concrete consistent input. -/
theorem C3_parallel_eq_serial_witness :
    dgemmParallel Transpose.NoTrans Transpose.NoTrans (⟨[1], 1, 1, 1⟩ : general ℚ)
        ⟨[2], 1, 1, 1⟩ ⟨[3], 1, 1, 1⟩ 1 =
      dgemmSerial Transpose.NoTrans Transpose.NoTrans ⟨[1], 1, 1, 1⟩
        ⟨[2], 1, 1, 1⟩ ⟨[3], 1, 1, 1⟩ 1 :=
  C3_parallel_eq_serial Transpose.NoTrans Transpose.NoTrans ⟨[1], 1, 1, 1⟩
    ⟨[2], 1, 1, 1⟩ ⟨[3], 1, 1, 1⟩ 1 (by decide) (by decide) (by decide) (by decide)
    (by decide) (by decide) (by decide)

/-- C4 (confirmed): for every operand-view pair and valid flag pair the
planner returns the contraction length (`a`'s columns untransposed, `a`'s
rows transposed) and the output-space tile count
`ceil(outputRows / blockSize) * ceil(outputCols / blockSize)`, the output
dimensions being `opRows tA a × opCols tB b` (which the entry point's
checks equate with `m × n`). -/
theorem C4_computeNumBlocks (a b : general ℚ) (tA tB : Transpose)
    (hA : tA ≠ Transpose.ConjTrans) (hB : tB ≠ Transpose.ConjTrans) :
    computeNumBlocks a b tA.isTrans tB.isTrans =
      (opCols tA a,
       ((opRows tA a + blockSize - 1) / blockSize) *
         ((opCols tB b + blockSize - 1) / blockSize)) := by
  cases tA with
  | ConjTrans => exact absurd rfl hA
  | NoTrans =>
    cases tB with
    | ConjTrans => exact absurd rfl hB
    | NoTrans =>
      simp only [opRows, opCols]
      rw [← ceilBlocks_eq, ← ceilBlocks_eq]
      rfl
    | Trans =>
      simp only [opRows, opCols]
      rw [← ceilBlocks_eq, ← ceilBlocks_eq]
      rfl
  | Trans =>
    cases tB with
    | ConjTrans => exact absurd rfl hB
    | NoTrans =>
      simp only [opRows, opCols]
      rw [← ceilBlocks_eq, ← ceilBlocks_eq]
      rfl
    | Trans =>
      simp only [opRows, opCols]
      rw [← ceilBlocks_eq, ← ceilBlocks_eq]
      rfl

/-- C4, witness: a `130 × 70` by `70 × 130` product needs `3 * 3` tiles. -/
theorem C4_computeNumBlocks_witness :
    computeNumBlocks (⟨[], 130, 70, 70⟩ : general ℚ) (⟨[], 70, 130, 130⟩ : general ℚ)
      Transpose.NoTrans.isTrans Transpose.NoTrans.isTrans = (70, 9) :=
  C4_computeNumBlocks ⟨[], 130, 70, 70⟩ ⟨[], 70, 130, 130⟩ Transpose.NoTrans
    Transpose.NoTrans (by decide) (by decide)

/-- C5, counterexample: `alpha = 0`, `beta = 1`, yet `C` changes: with an
`Inf` in `A`, the kernel's multiplier is `tmp = 0 * Inf = NaN`, which
passes the `tmp != 0` test, so `NaN` is added into `C`.  The call is valid
(no panic) and `C` goes from `5` to `NaN`. -/
theorem C5_counterexample :
    (Dgemm Transpose.NoTrans Transpose.NoTrans 1 1 1 (FP.fin 0) [FP.inf] 1 [FP.fin 1] 1
      (FP.fin 1) [FP.fin 5] 1).2 = none ∧
    (Dgemm Transpose.NoTrans Transpose.NoTrans 1 1 1 (FP.fin 0) [FP.inf] 1 [FP.fin 1] 1
      (FP.fin 1) [FP.fin 5] 1).1 = [FP.nan] := by
  decide

/-- C5 (corrected): on a valid call with `alpha = 0` and `beta = 1`, `C` is
left completely unchanged provided every entry of `A` and `B` is finite;
with an `Inf` or `NaN` operand entry the multiplier `0 * entry` is `NaN`
and the law fails (see the counterexample). -/
theorem C5_alpha_zero (tA tB : Transpose) (m n k : Nat) (a : List FP) (lda : Nat)
    (b : List FP) (ldb : Nat) (cl : List FP) (ldc : Nat)
    (hval : dgemmValid tA tB m n k a lda b ldb cl ldc)
    (ha : ∀ x ∈ a, x.finite = true) (hb : ∀ x ∈ b, x.finite = true) :
    Dgemm tA tB m n k (0 : FP) a lda b ldb (1 : FP) cl ldc = (cl, none) := by
  obtain ⟨hca, hcb, hcc, hfa, hfb⟩ := hval
  have hnfa : ¬(tA ≠ Transpose.Trans ∧ tA ≠ Transpose.NoTrans) := by
    rcases hfa with h | h <;> simp [h]
  have hnfb : ¬(tB ≠ Transpose.Trans ∧ tB ≠ Transpose.NoTrans) := by
    rcases hfb with h | h <;> simp [h]
  have hD : Dgemm tA tB m n k (0 : FP) a lda b ldb (1 : FP) cl ldc =
      ((dgemmParallel tA tB
        (if tA.isTrans then ⟨a, k, m, lda⟩ else ⟨a, m, k, lda⟩)
        (if tB.isTrans then ⟨b, n, k, ldb⟩ else ⟨b, k, n, ldb⟩)
        (⟨cl, m, n, ldc⟩ : general FP) 0).data, none) := by
    simp only [Dgemm]
    rw [hca, hcb, hcc, if_neg hnfa, if_neg hnfb,
      if_neg (show ¬((1 : FP) ≠ 1) from not_not.mpr rfl)]
  rw [hD, dgemmParallel_alpha_zero tA tB _ _ _
    (fun x hx => ha x (amat_data tA a m k lda ▸ hx))
    (fun x hx => hb x (bmat_data tB b n k ldb ▸ hx))]

/-- C5, witness of the corrected statement at a concrete finite call. -/
theorem C5_alpha_zero_witness :
    Dgemm Transpose.NoTrans Transpose.NoTrans 1 1 1 (0 : FP) [FP.fin 2] 1 [FP.fin 3] 1
      (1 : FP) [FP.fin 5] 1 = ([FP.fin 5], none) :=
  C5_alpha_zero Transpose.NoTrans Transpose.NoTrans 1 1 1 [FP.fin 2] 1 [FP.fin 3] 1
    [FP.fin 5] 1 (by unfold dgemmValid; decide) (by decide) (by decide)

/-- C6, counterexample: skipping the zero-multiplier pass is not always
identical to running it: with `alpha = 1`, `A = [0]`, `B = [Inf]`, the
skipped kernel leaves `C = [0]` while the unskipped pass adds
`0 * Inf = NaN`. -/
theorem C6_counterexample :
    dgemmSerialNotNot (⟨[FP.fin 0], 1, 1, 1⟩ : general FP) ⟨[FP.inf], 1, 1, 1⟩
        ⟨[FP.fin 0], 1, 1, 1⟩ (FP.fin 1) ≠
      dgemmSerialNotNotNoSkip ⟨[FP.fin 0], 1, 1, 1⟩ ⟨[FP.inf], 1, 1, 1⟩
        ⟨[FP.fin 0], 1, 1, 1⟩ (FP.fin 1) := by
  decide

/-- C6 (corrected): in each kernel carrying a short-circuit
(`dgemmSerialNotNot`, `dgemmSerialTransNot` on `tmp != 0`;
`dgemmSerialTransTrans` on `v != 0`), skipping is numerically identical to
running the pass and adding the exactly-zero terms, provided every entry
of `B` is finite (and, for the `TransTrans` kernel whose test is on `v`
rather than `tmp`, `alpha` is finite); with an `Inf`/`NaN` in `B` the
skipped term would be `0 * Inf = NaN`, not zero (see the counterexample). -/
theorem C6_skip_eq (a b c : general FP) (alpha : FP)
    (hb : ∀ x ∈ b.data, x.finite = true) (halpha : alpha.finite = true) :
    dgemmSerialNotNot a b c alpha = dgemmSerialNotNotNoSkip a b c alpha ∧
    dgemmSerialTransNot a b c alpha = dgemmSerialTransNotNoSkip a b c alpha ∧
    dgemmSerialTransTrans a b c alpha = dgemmSerialTransTransNoSkip a b c alpha :=
  ⟨notNot_skip_eq a b c alpha hb, transNot_skip_eq a b c alpha hb,
   transTrans_skip_eq a b c alpha hb halpha⟩

/-- C6, witness at a concrete finite input. -/
theorem C6_skip_eq_witness :
    dgemmSerialNotNot (⟨[FP.fin 2], 1, 1, 1⟩ : general FP) ⟨[FP.fin 3], 1, 1, 1⟩
        ⟨[FP.fin 5], 1, 1, 1⟩ (FP.fin 1) =
      dgemmSerialNotNotNoSkip ⟨[FP.fin 2], 1, 1, 1⟩ ⟨[FP.fin 3], 1, 1, 1⟩
        ⟨[FP.fin 5], 1, 1, 1⟩ (FP.fin 1) ∧
    dgemmSerialTransNot (⟨[FP.fin 2], 1, 1, 1⟩ : general FP) ⟨[FP.fin 3], 1, 1, 1⟩
        ⟨[FP.fin 5], 1, 1, 1⟩ (FP.fin 1) =
      dgemmSerialTransNotNoSkip ⟨[FP.fin 2], 1, 1, 1⟩ ⟨[FP.fin 3], 1, 1, 1⟩
        ⟨[FP.fin 5], 1, 1, 1⟩ (FP.fin 1) ∧
    dgemmSerialTransTrans (⟨[FP.fin 2], 1, 1, 1⟩ : general FP) ⟨[FP.fin 3], 1, 1, 1⟩
        ⟨[FP.fin 5], 1, 1, 1⟩ (FP.fin 1) =
      dgemmSerialTransTransNoSkip ⟨[FP.fin 2], 1, 1, 1⟩ ⟨[FP.fin 3], 1, 1, 1⟩
        ⟨[FP.fin 5], 1, 1, 1⟩ (FP.fin 1) :=
  C6_skip_eq ⟨[FP.fin 2], 1, 1, 1⟩ ⟨[FP.fin 3], 1, 1, 1⟩ ⟨[FP.fin 5], 1, 1, 1⟩
    (FP.fin 1) (by decide) (by decide)

/-- C7 (confirmed): the tile tasks of one call are a strict partition of
the output index space: the task list has no duplicate, every output
element is covered by exactly one enqueued tile (edge tiles clipped at the
boundary), two tasks covering a common element are the same task, and the
tiled path computes exactly the naive triple-loop reference (in particular
elements are neither computed twice nor skipped, for every size including
`m = n = k = 130` with block size 64). -/
theorem C7_tiling :
    (∀ rows cols : Nat, (tileTasks rows cols).Nodup) ∧
    (∀ rows cols i j : Nat, i < rows → j < cols →
      ∃! t : Nat × Nat, t ∈ tileTasks rows cols ∧ tileCovers rows cols t i j) ∧
    (∀ (rows cols i j : Nat) (t1 t2 : Nat × Nat), t1 ∈ tileTasks rows cols →
      t2 ∈ tileTasks rows cols → tileCovers rows cols t1 i j →
      tileCovers rows cols t2 i j → t1 = t2) ∧
    (∀ (tA tB : Transpose) (a b cm : general ℚ) (alpha : ℚ) (K : Nat),
      tA ≠ Transpose.ConjTrans → tB ≠ Transpose.ConjTrans → cm.cols ≤ cm.stride →
      (cm.rows = 0 ∨ cm.cols = 0 ∨ (cm.rows - 1) * cm.stride + cm.cols ≤ cm.data.length) →
      dgemmTiled tA tB a b cm alpha K = naiveDgemm tA tB a b cm alpha K) := by
  refine ⟨tileTasks_nodup, tileTasks_cover, ?disj, ?naive⟩
  case disj =>
    intro rows cols i j t1 t2 hm1 hm2 hc1 hc2
    obtain ⟨i1, j1⟩ := t1
    obtain ⟨i2, j2⟩ := t2
    obtain ⟨⟨_, hlt1⟩, _, hlt1j⟩ := mem_tileTasks.mp hm1
    obtain ⟨hc11, hc12, hc13, hc14⟩ := hc1
    have hi : i < rows := by
      simp only at hc11 hc12
      omega
    have hj : j < cols := by
      simp only at hc13 hc14
      omega
    obtain ⟨t, ht, huniq⟩ := tileTasks_cover rows cols i j hi hj
    rw [huniq (i1, j1) ⟨hm1, hc11, hc12, hc13, hc14⟩, huniq (i2, j2) ⟨hm2, hc2⟩]
  case naive =>
    intro tA tB a b cm alpha K hA hB hcw hclen
    refine general.ext_fields ?_ ?_ ?_ ?_
    · refine List.ext_getElem? ?_
      intro p
      rw [dgemmTiled_getElem? tA tB a b cm alpha K hA hB hcw hclen p,
          naiveDgemm_getElem? tA tB a b cm alpha K hcw p]
    · rw [dgemmTiled_rows, naiveDgemm_rows]
    · rw [dgemmTiled_cols, naiveDgemm_cols]
    · rw [dgemmTiled_stride, naiveDgemm_stride]

/-- C7, witness: the partition facts at the spec's `130 × 130` output, and
the tiled-equals-naive equation at a concrete input. -/
theorem C7_tiling_witness :
    (tileTasks 130 130).Nodup ∧
    (∃! t : Nat × Nat, t ∈ tileTasks 130 130 ∧ tileCovers 130 130 t 129 64) ∧
    ((128, 64) : Nat × Nat) = ((128, 64) : Nat × Nat) ∧
    dgemmTiled Transpose.NoTrans Transpose.NoTrans (⟨[2], 1, 1, 1⟩ : general ℚ)
        ⟨[3], 1, 1, 1⟩ ⟨[5], 1, 1, 1⟩ 1 1 =
      naiveDgemm Transpose.NoTrans Transpose.NoTrans ⟨[2], 1, 1, 1⟩
        ⟨[3], 1, 1, 1⟩ ⟨[5], 1, 1, 1⟩ 1 1 :=
  ⟨C7_tiling.1 130 130,
   C7_tiling.2.1 130 130 129 64 (by decide) (by decide),
   C7_tiling.2.2.1 130 130 129 64 (128, 64) (128, 64) (by decide) (by decide)
     (by decide) (by decide),
   C7_tiling.2.2.2 Transpose.NoTrans Transpose.NoTrans ⟨[2], 1, 1, 1⟩ ⟨[3], 1, 1, 1⟩
     ⟨[5], 1, 1, 1⟩ 1 1 (by decide) (by decide) (by decide) (by decide)⟩

/-- C8 (confirmed): the entry point panics exactly on invalid calls (a
failing view check or an out-of-domain transpose flag), and on every
panicking call the `C` buffer is returned exactly as it was: validation is
synchronous and up front, so a call either fails atomically with no
mutation or fully completes.  (`A` and `B` are never written by any path
of the embedding.) -/
theorem C8_errors_atomic (tA tB : Transpose) (m n k : Nat) (alpha : ℚ) (a : List ℚ)
    (lda : Nat) (b : List ℚ) (ldb : Nat) (beta : ℚ) (cl : List ℚ) (ldc : Nat) :
    ((Dgemm tA tB m n k alpha a lda b ldb beta cl ldc).2 = none ↔
      dgemmValid tA tB m n k a lda b ldb cl ldc) ∧
    ((Dgemm tA tB m n k alpha a lda b ldb beta cl ldc).2 ≠ none →
      (Dgemm tA tB m n k alpha a lda b ldb beta cl ldc).1 = cl) :=
  ⟨Dgemm_snd_none_iff tA tB m n k alpha a lda b ldb beta cl ldc,
   Dgemm_error_id tA tB m n k alpha a lda b ldb beta cl ldc⟩

/-- C8, witness: a call with `ldc = 0 < n` panics and returns `C` intact. -/
theorem C8_errors_atomic_witness :
    (Dgemm Transpose.NoTrans Transpose.NoTrans 1 1 1 (1 : ℚ) [1] 1 [1] 1 1 [5] 0).1 =
      [(5 : ℚ)] :=
  (C8_errors_atomic Transpose.NoTrans Transpose.NoTrans 1 1 1 1 [1] 1 [1] 1 1 [5] 0).2
    (by decide)

/-- C9 (confirmed): frame property.  On a valid call the entry point leaves
every physical position of the `C` buffer outside the logical `m × n`
region (row padding between `cols` and `stride`, and the tail past the last
logical row) exactly as it was; the `beta`-scaling pass and the serial
kernel set likewise write only inside the logical region.  The `A` and `B`
buffers are read but never written: every function of the embedding
returns a new `c` and leaves `a` and `b` untouched by construction. -/
theorem C9_frame :
    (∀ (tA tB : Transpose) (m n k : Nat) (alpha : ℚ) (a : List ℚ) (lda : Nat)
      (b : List ℚ) (ldb : Nat) (beta : ℚ) (cl : List ℚ) (ldc : Nat),
      dgemmValid tA tB m n k a lda b ldb cl ldc →
      ∀ p : Nat, ¬(p / ldc < m ∧ p % ldc < n) →
      (Dgemm tA tB m n k alpha a lda b ldb beta cl ldc).1[p]? = cl[p]?) ∧
    (∀ (m : Nat) (beta : ℚ) (cm : general ℚ) (p : Nat), cm.cols ≤ cm.stride →
      ¬(p / cm.stride < m ∧ p % cm.stride < cm.cols) →
      (scaleRows m beta cm).data[p]? = cm.data[p]?) ∧
    (∀ (tA tB : Transpose) (a b cm : general ℚ) (alpha : ℚ) (p : Nat),
      tA ≠ Transpose.ConjTrans → tB ≠ Transpose.ConjTrans →
      opCols tB b ≤ cm.stride → opRows tB b = opCols tA a →
      ¬(p / cm.stride < opRows tA a ∧ p % cm.stride < opCols tB b) →
      (dgemmSerial tA tB a b cm alpha).data[p]? = cm.data[p]?) := by
  refine ⟨?dg, ?sc, ?sk⟩
  case dg =>
    intro tA tB m n k alpha a lda b ldb beta cl ldc hval p hout
    rw [(Dgemm_spec tA tB m n k alpha a lda b ldb beta cl ldc hval).2.2 p, if_neg hout]
  case sc =>
    intro m beta cm p hw hout
    rw [scaleRows_getElem? m beta cm hw p, if_neg hout]
  case sk =>
    intro tA tB a b cm alpha p hA hB hw hK hout
    rw [dgemmSerial_getElem? tA tB a b cm alpha hA hB hw hK p, if_neg hout]

/-- C9, witness: the padding position `p = 1` of a one-element logical
region survives the entry point, the scaling pass and a serial kernel. -/
theorem C9_frame_witness :
    (Dgemm Transpose.NoTrans Transpose.NoTrans 1 1 1 (2 : ℚ) [1] 1 [1] 1 3 [5, 7] 2).1[1]? =
      ([(5 : ℚ), 7])[1]? ∧
    (scaleRows 1 (3 : ℚ) ⟨[5, 7], 1, 1, 2⟩).data[1]? = ([(5 : ℚ), 7])[1]? ∧
    (dgemmSerial Transpose.NoTrans Transpose.NoTrans (⟨[1], 1, 1, 1⟩ : general ℚ)
      ⟨[1], 1, 1, 1⟩ ⟨[5, 7], 1, 1, 2⟩ 2).data[1]? = ([(5 : ℚ), 7])[1]? :=
  ⟨C9_frame.1 Transpose.NoTrans Transpose.NoTrans 1 1 1 2 [1] 1 [1] 1 3 [5, 7] 2
     (by unfold dgemmValid; decide) 1 (by decide),
   C9_frame.2.1 1 3 ⟨[5, 7], 1, 1, 2⟩ 1 (by decide) (by decide),
   C9_frame.2.2 Transpose.NoTrans Transpose.NoTrans ⟨[1], 1, 1, 1⟩ ⟨[1], 1, 1, 1⟩
     ⟨[5, 7], 1, 1, 2⟩ 2 1 (by decide) (by decide) (by decide) (by decide) (by decide)⟩

/-- C10 (confirmed): degenerate dimensions terminate normally.  With
`k = 0` the product contributes nothing and every logical element of `C`
is exactly its prior value scaled by `beta` (padding and tail untouched);
with `m = 0` or `n = 0` the logical region is empty and the buffer is
returned entirely unchanged. -/
theorem C10_degenerate (tA tB : Transpose) (m n k : Nat) (alpha : ℚ) (a : List ℚ)
    (lda : Nat) (b : List ℚ) (ldb : Nat) (beta : ℚ) (cl : List ℚ) (ldc : Nat)
    (hval : dgemmValid tA tB m n k a lda b ldb cl ldc) :
    (Dgemm tA tB m n k alpha a lda b ldb beta cl ldc).2 = none ∧
    (k = 0 → ∀ p : Nat, (Dgemm tA tB m n k alpha a lda b ldb beta cl ldc).1[p]? =
      if p / ldc < m ∧ p % ldc < n then (cl[p]?).map (fun x => x * beta) else cl[p]?) ∧
    ((m = 0 ∨ n = 0) → (Dgemm tA tB m n k alpha a lda b ldb beta cl ldc).1 = cl) := by
  obtain ⟨herr, hlen, hp⟩ := Dgemm_spec tA tB m n k alpha a lda b ldb beta cl ldc hval
  refine ⟨herr, ?k0, ?mn0⟩
  case k0 =>
    intro hk p
    rw [hp p]
    subst hk
    by_cases hc : p / ldc < m ∧ p % ldc < n
    · rw [if_pos hc, if_pos hc]
      congr 1
      funext x
      simp
    · rw [if_neg hc, if_neg hc]
  case mn0 =>
    intro hmn
    refine List.ext_getElem? ?_
    intro p
    rw [hp p]
    have hc : ¬(p / ldc < m ∧ p % ldc < n) := by
      rcases hmn with h | h
      · subst h
        rintro ⟨h1, h2⟩
        exact Nat.not_lt_zero _ h1
      · subst h
        rintro ⟨h1, h2⟩
        exact Nat.not_lt_zero _ h2
    rw [if_neg hc]

/-- C10, witness: a `k = 0` call scales `C` by `beta` and an `n = 0` call
returns it unchanged. -/
theorem C10_degenerate_witness :
    (Dgemm Transpose.NoTrans Transpose.NoTrans 1 1 0 (2 : ℚ) [] 1 [] 1 3 [5] 1).2 = none ∧
    (Dgemm Transpose.NoTrans Transpose.NoTrans 1 1 0 (2 : ℚ) [] 1 [] 1 3 [5] 1).1[0]? =
      (if 0 / 1 < 1 ∧ 0 % 1 < 1 then (([(5 : ℚ)])[0]?).map (fun x => x * 3)
       else ([(5 : ℚ)])[0]?) ∧
    (Dgemm Transpose.NoTrans Transpose.NoTrans 1 0 1 (2 : ℚ) [1] 1 [] 1 3 [] 1).1 = [] :=
  ⟨(C10_degenerate Transpose.NoTrans Transpose.NoTrans 1 1 0 2 [] 1 [] 1 3 [5] 1
      (by unfold dgemmValid; decide)).1,
   (C10_degenerate Transpose.NoTrans Transpose.NoTrans 1 1 0 2 [] 1 [] 1 3 [5] 1
      (by unfold dgemmValid; decide)).2.1 rfl 0,
   (C10_degenerate Transpose.NoTrans Transpose.NoTrans 1 0 1 2 [1] 1 [] 1 3 [] 1
      (by unfold dgemmValid; decide)).2.2 (Or.inr rfl)⟩

end Blas
